import Mathlib

/-!
Verification of the svo-rs sparse voxel octree against its specification.

The definitions below are a shallow embedding of the Rust source:
- src/vector.rs   : Vec3 (the source's Vector3<u32>; coordinates are modelled
                    as Nat — all operations proved about run on well-formed
                    trees whose coordinates stay far below 2^32, so u32
                    wrap-around never occurs on the modelled paths)
- src/node.rs     : NodeTy (NodeType<T>), Node<T>, Octant geometry, contains,
                    child_info, get, insert, clear, simplify, lod,
                    serialize, deserialize
- src/octree.rs   : Octree<T> facade (new, insert, get, clear_at, lod_down)
- src/error.rs    : Error

The fixed-size array [Option<Box<Node<T>>>; 8] of children is modelled as a
List (Option (Node T)); every value representable in Rust has length exactly
8, which the well-formedness predicate records.  Loops over the eight child
slots, and indexed accesses such as self.children[octant], become structural
list recursions; bridging lemmas relate them to List.getD / List.set so that
statements can be read positionally.  Rust panics (unwrap, unreachable,
index out of bounds, checked-arithmetic overflow) are modelled by an Option
layer: a result of none means the Rust code panics.  Functions whose
recursion is not structural in the tree (insert, which may create fresh
nodes on the way down, and the serialize/deserialize work-queue loops) take
an explicit fuel argument and return none when it runs out; theorems
quantify over sufficient fuel.  Rust's T: Default bound is modelled by
Inhabited, T: Eq + PartialEq by DecidableEq.
-/

namespace Svo

/-- Vector3<u32> from src/vector.rs. -/
structure Vec3 where
  x : Nat
  y : Nat
  z : Nat
deriving DecidableEq, Repr

instance : Add Vec3 :=
  ⟨fun a b => ⟨a.x + b.x, a.y + b.y, a.z + b.z⟩⟩

/-- Vector3::component_mul from src/vector.rs. -/
def Vec3.component_mul (a b : Vec3) : Vec3 :=
  ⟨a.x * b.x, a.y * b.y, a.z * b.z⟩

@[simp] lemma Vec3.add_def (a b : Vec3) :
    a + b = ⟨a.x + b.x, a.y + b.y, a.z + b.z⟩ := rfl

/-- Error from src/error.rs (InvalidOctant is never produced by the
modelled code paths). -/
inductive Error where
  | invalidDimension (d : Nat)
  | invalidPosition (x y z : Nat)
  | invalidOctant (o : Nat)
deriving DecidableEq, Repr

/-- NodeType<T> from src/node.rs. -/
inductive NodeTy (T : Type) where
  | leaf (v : T)
  | internal
deriving DecidableEq, Repr

/-- Node<T> from src/node.rs; children is the [Option<Box<Node<T>>>; 8]
array (always of length 8 for values representable in Rust). -/
inductive Node (T : Type) where
  | mk (ty : NodeTy T) (min_position : Vec3) (dimension : Nat)
       (children : List (Option (Node T))) : Node T

def Node.ty : Node T → NodeTy T
  | .mk t _ _ _ => t

def Node.min_position : Node T → Vec3
  | .mk _ m _ _ => m

def Node.dimension : Node T → Nat
  | .mk _ _ d _ => d

def Node.children : Node T → List (Option (Node T))
  | .mk _ _ _ c => c

/-- Field update self.ty = t. -/
def Node.setTy : Node T → NodeTy T → Node T
  | .mk _ mp d cs, t => .mk t mp d cs

/-- Field update self.children = cs. -/
def Node.setChildren : Node T → List (Option (Node T)) → Node T
  | .mk t mp d _, cs => .mk t mp d cs

@[simp] lemma Node.ty_mk (t : NodeTy T) (m : Vec3) (d : Nat)
    (c : List (Option (Node T))) : (Node.mk t m d c).ty = t := rfl

@[simp] lemma Node.min_position_mk (t : NodeTy T) (m : Vec3) (d : Nat)
    (c : List (Option (Node T))) : (Node.mk t m d c).min_position = m := rfl

@[simp] lemma Node.dimension_mk (t : NodeTy T) (m : Vec3) (d : Nat)
    (c : List (Option (Node T))) : (Node.mk t m d c).dimension = d := rfl

@[simp] lemma Node.children_mk (t : NodeTy T) (m : Vec3) (d : Nat)
    (c : List (Option (Node T))) : (Node.mk t m d c).children = c := rfl

@[simp] lemma Node.setTy_mk (t t' : NodeTy T) (m : Vec3) (d : Nat)
    (c : List (Option (Node T))) : (Node.mk t m d c).setTy t' = Node.mk t' m d c := rfl

@[simp] lemma Node.setChildren_mk (t : NodeTy T) (m : Vec3) (d : Nat)
    (c c' : List (Option (Node T))) :
    (Node.mk t m d c).setChildren c' = Node.mk t m d c' := rfl

/-- Octant::offset from src/node.rs.  The Rust enum Octant is represented
by its usize discriminant 0..7; values outside 0..7 are unrepresentable in
Rust (Octant::from panics on them) and are mapped to an arbitrary vector. -/
def Octant.offset : Nat → Vec3
  | 0 => ⟨0, 0, 0⟩
  | 1 => ⟨1, 0, 0⟩
  | 2 => ⟨0, 0, 1⟩
  | 3 => ⟨1, 0, 1⟩
  | 4 => ⟨0, 1, 0⟩
  | 5 => ⟨1, 1, 0⟩
  | 6 => ⟨0, 1, 1⟩
  | 7 => ⟨1, 1, 1⟩
  | _ => ⟨0, 0, 0⟩

/-- Octant::vector_diff from src/node.rs (rhs is the midpoint, lhs the
queried position; the result is the octant discriminant). -/
def Octant.vector_diff (rhs lhs : Vec3) : Nat :=
  if lhs.z < rhs.z then
    if lhs.y < rhs.y then
      if lhs.x < rhs.x then 0 else 1
    else
      if lhs.x < rhs.x then 4 else 5
  else
    if lhs.y < rhs.y then
      if lhs.x < rhs.x then 2 else 3
    else
      if lhs.x < rhs.x then 6 else 7

/-- Node::contains from src/node.rs. -/
def Node.contains (n : Node T) (position : Vec3) : Bool :=
  decide (n.min_position.x ≤ position.x) &&
  decide (position.x < n.min_position.x + n.dimension) &&
  decide (n.min_position.y ≤ position.y) &&
  decide (position.y < n.min_position.y + n.dimension) &&
  decide (n.min_position.z ≤ position.z) &&
  decide (position.z < n.min_position.z + n.dimension)

/-- ChildInfo from src/node.rs. -/
structure ChildInfo where
  dimension : Nat
  dimension_3d : Vec3
  octant : Nat

/-- Node::child_info from src/node.rs. -/
def Node.child_info (n : Node T) (position : Vec3) : Option ChildInfo :=
  if n.contains position then
    let dimension := n.dimension / 2
    let dimension_3d : Vec3 := ⟨dimension, dimension, dimension⟩
    let midpoint := n.min_position + dimension_3d
    some ⟨dimension, dimension_3d, Octant.vector_diff midpoint position⟩
  else
    none

/-- Node::child_min_position from src/node.rs. -/
def Node.child_min_position (n : Node T) (dimension_3d : Vec3) (octant : Nat) : Vec3 :=
  n.min_position + dimension_3d.component_mul (Octant.offset octant)

/-- Node::is_leaf from src/node.rs. -/
def Node.is_leaf (n : Node T) : Bool :=
  match n.ty with
  | .leaf _ => true
  | .internal => false

/-- Node::leaf_data from src/node.rs. -/
def Node.leaf_data (n : Node T) : Option T :=
  match n.ty with
  | .leaf data => some data
  | .internal => none

/-- Node::new from src/node.rs: a leaf holding the default value, with the
given bounds and no children. -/
def Node.new [Inhabited T] (min_position : Vec3) (dimension : Nat) : Node T :=
  Node.mk (.leaf default) min_position dimension (List.replicate 8 none)

/-! ### Node::get -/

mutual

/-- Node::get from src/node.rs.  The indexed child access
self.children[octant] is the structural list walk getChild; the lemma
getChild_eq below restates it through List.getD. -/
def Node.get : Node T → Vec3 → Option T
  | n@(.mk ty _ _ cs), position =>
    if ¬ n.contains position then none
    else
      match ty with
      | .leaf data => some data
      | .internal =>
        match n.child_info position with
        | some ci => getChild cs ci.octant position
        | none => none    -- unreachable: contains was checked above

/-- self.children[octant] followed by the recursive call in Node::get. -/
def getChild : List (Option (Node T)) → Nat → Vec3 → Option T
  | [], _, _ => none
  | c :: _, 0, position =>
    match c with
    | some child => child.get position
    | none => none
  | _ :: rest, i + 1, position => getChild rest i position

end

lemma getChild_eq (cs : List (Option (Node T))) (i : Nat) (position : Vec3) :
    getChild cs i position =
      match cs.getD i none with
      | some child => child.get position
      | none => none := by
  induction cs generalizing i with
  | nil => cases i <;> simp [getChild]
  | cons c rest ih =>
    cases i with
    | zero => cases c <;> simp [getChild]
    | succ j => simpa [getChild] using ih j

/-! ### Node::simplify -/

/-- The loop body of Node::simplify from src/node.rs: walks the children
accumulating the common leaf value; none models the early return false
(an absent slot, an internal child, or two distinct leaf values). -/
def collectUniform [DecidableEq T] :
    List (Option (Node T)) → Option T → Option (Option T)
  | [], acc => some acc
  | none :: _, _ => none
  | some c :: rest, acc =>
    match c.ty with
    | .internal => none
    | .leaf d =>
      match acc with
      | none => collectUniform rest (some d)
      | some d0 => if d0 = d then collectUniform rest (some d0) else none

/-- Node::simplify from src/node.rs.  Returns the bool result together with
the updated node (the source mutates self in place).  The some none case of
collectUniform can only arise from an empty child list, which is
unrepresentable in Rust (the array always has 8 slots, and the first
iteration either returns false or sets the accumulator); it is mapped to
(false, n). -/
def Node.simplify [DecidableEq T] (n : Node T) : Bool × Node T :=
  match collectUniform n.children none with
  | some (some d) =>
    (true, Node.mk (.leaf d) n.min_position n.dimension (List.replicate 8 none))
  | _ => (false, n)

/-! ### Node::insert -/

/-- The sibling-materialization loop in Node::insert from src/node.rs:
for each octant i other than the destination, children[i] becomes a fresh
leaf node carrying the splitting node's current value v. -/
def materialize [Inhabited T] (n : Node T) (dimension_3d : Vec3)
    (child_dimension : Nat) (octant : Nat) (v : T) : List (Option (Node T)) :=
  (List.range 8).foldl
    (fun cs i =>
      if i = octant then cs
      else cs.set i (some (Node.mk (.leaf v)
        (n.child_min_position dimension_3d i) child_dimension (List.replicate 8 none))))
    n.children

/-- The tail of Node::insert: self.ty = Internal, then optionally
self.simplify() (whose bool result the source discards). -/
def insertFinish [DecidableEq T] (n : Node T) (do_simplify : Bool) :
    Option (Node T × Except Error Unit) :=
  let n' := n.setTy .internal
  some ((if do_simplify then (n'.simplify).2 else n'), .ok ())

/-- Node::insert from src/node.rs.  The first argument is fuel bounding the
recursion depth (the source recursion is bounded by the dimension, which
halves at every step; fuel exhaustion yields none and never occurs in the
theorems below).  A result of some (n, .error e) is the source's early
Err return, which happens before any mutation; none models a panic (the
source unwraps the result of the recursive call). -/
def Node.insert [Inhabited T] [DecidableEq T] :
    Nat → Node T → Vec3 → Nat → Bool → T → Option (Node T × Except Error Unit)
  | 0, _, _, _, _, _ => none
  | fuel + 1, n, position, min_dimension, do_simplify, data =>
    if ¬ n.contains position then
      some (n, .error (.invalidPosition position.x position.y position.z))
    else if n.dimension = min_dimension then
      some (n.setTy (.leaf data), .ok ())
    else
      match n.child_info position with
      | none => none        -- unreachable: contains was checked above
      | some ci =>
        let n1 :=
          if n.is_leaf && (ci.dimension == min_dimension) then
            match n.leaf_data with
            | some v =>
              n.setChildren (materialize n ci.dimension_3d ci.dimension ci.octant v)
            | none => n     -- unreachable: guarded by is_leaf
          else n
        match n1.children.getD ci.octant none with
        | some child =>
          match Node.insert fuel child position min_dimension do_simplify data with
          | some (child', .ok _) =>
            insertFinish
              (n1.setChildren (n1.children.set ci.octant (some child'))) do_simplify
          | _ => none
        | none =>
          let node : Node T :=
            Node.new (n1.child_min_position ci.dimension_3d ci.octant) ci.dimension
          match Node.insert fuel node position min_dimension do_simplify data with
          | some (node', .ok _) =>
            insertFinish
              (n1.setChildren (n1.children.set ci.octant (some node'))) do_simplify
          | _ => none

/-! ### Node::clear -/

/-- The child-slot wipe in Node::clear: for i in 0..8, children[i] = None. -/
def wipeChildren (cs : List (Option (Node T))) : List (Option (Node T)) :=
  (List.range 8).foldl (fun l i => l.set i none) cs

mutual

/-- Node::clear from src/node.rs.  Returns the updated node together with
the Result; none models a panic (the source unwraps the recursive call's
result).  The final forced assignment of the cleared child's ty is the
toLeaf flag passed to clearChild. -/
def Node.clear [Inhabited T] : Node T → Vec3 → Nat → Option (Node T × Except Error Unit)
  | n@(.mk ty mp d cs), position, min_dimension =>
    if n.contains position then
      match n.child_info position with
      | some ci =>
        if n.is_leaf && (ci.dimension == min_dimension) then
          some (Node.mk ty mp d (wipeChildren cs), .ok ())
        else
          match clearChild cs ci.octant position min_dimension
              (n.is_leaf || (ci.dimension == min_dimension)) with
          | some cs' => some (Node.mk ty mp d cs', .ok ())
          | none => none
      | none => none      -- unreachable: contains holds here
    else
      some (n, .error (.invalidPosition position.x position.y position.z))

/-- The access self.children[octant] in Node::clear: if the slot is
absent nothing happens; otherwise clear recursively, then force the
child's ty to Leaf(default) or Internal according to toLeaf. -/
def clearChild [Inhabited T] :
    List (Option (Node T)) → Nat → Vec3 → Nat → Bool → Option (List (Option (Node T)))
  | [], _, _, _, _ => some []
  | none :: rest, 0, _, _, _ => some (none :: rest)
  | some c :: rest, 0, position, min_dimension, toLeaf =>
    match Node.clear c position min_dimension with
    | some (c', .ok _) =>
      some (some (c'.setTy (if toLeaf then .leaf default else .internal)) :: rest)
    | _ => none           -- inner Err: the source's unwrap panics
  | x :: rest, i + 1, position, min_dimension, toLeaf =>
    match clearChild rest i position min_dimension toLeaf with
    | some rest' => some (x :: rest')
    | none => none

end

/-! ### Node::lod -/

/-- The frequency tally in Node::lod (the source folds into a HashMap;
an association list in first-insertion order is a deterministic stand-in —
the theorems below only use facts independent of the iteration order). -/
def tally [DecidableEq T] (l : List T) : List (T × Nat) :=
  l.foldl
    (fun acc v =>
      if acc.any (fun e => e.1 = v) then
        acc.map (fun e => if e.1 = v then (e.1, e.2 + 1) else e)
      else acc ++ [(v, 1)])
    []

/-- One comparison step of Iterator::max_by_key: keep the later element on
ties (Rust's max_by_key returns the last maximal element). -/
def maxStep : Option (T × Nat) → (T × Nat) → Option (T × Nat)
  | none, e => some e
  | some b, e => if b.2 ≤ e.2 then some e else some b

/-- Iterator::max_by_key over the tally (the source iterates a HashMap,
so which maximal-count value wins a tie is unspecified there; the theorems
below only use that the result has maximal count). -/
def maxByCount (l : List (T × Nat)) : Option T :=
  (l.foldl maxStep none).map (fun e => e.1)

mutual

/-- Node::lod from src/node.rs.  lodChildren walks the 8 slots: leaf
children contribute their value to the tally, internal children are
recursively collapsed in place (their resulting values are not tallied),
and an absent slot aborts the walk, keeping the mutations made so far and
skipping the fill/retag step (the source's early return). -/
def Node.lod [DecidableEq T] : Node T → Node T
  | .mk ty mp d cs =>
    match lodChildren cs with
    | (cs', all_data, true) =>
      let counts := tally all_data
      let ty' :=
        if counts.isEmpty then ty
        else
          match maxByCount counts with
          | some v => NodeTy.leaf v
          | none => ty
      Node.mk ty' mp d (cs'.map (fun _ => none))
    | (cs', _, false) => Node.mk ty mp d cs'

/-- The child loop of Node::lod; the Bool is false when an absent slot
caused an early return. -/
def lodChildren [DecidableEq T] :
    List (Option (Node T)) → List (Option (Node T)) × List T × Bool
  | [] => ([], [], true)
  | none :: rest => (none :: rest, [], false)
  | some c :: rest =>
    match c.ty with
    | .leaf dt =>
      match lodChildren rest with
      | (rest', ds, ok) => (some c :: rest', dt :: ds, ok)
    | .internal =>
      let c' := c.lod
      match lodChildren rest with
      | (rest', ds, ok) => (some c' :: rest', ds, ok)

end

/-! ### Node::serialize and Node::deserialize -/

/-- One step of the child loop of a Node::serialize iteration: a present
child at slot i is appended to all_nodes (paired with a zeroed index
array), its eventual index recorded in the parent's index array, and
queued. -/
def serStep (cur : Node T)
    (st : List Nat × List (Node T × List Nat) × List Nat) (i : Nat) :
    List Nat × List (Node T × List Nat) × List Nat :=
  match st with
  | (idx, an, q) =>
    match cur.children.getD i none with
    | some c =>
      (idx.set i an.length, an ++ [(c, List.replicate 8 0)], q ++ [an.length])
    | none => (idx, an, q)

/-- The child loop of one Node::serialize iteration: for i in 0..8. -/
def serChildren (cur : Node T)
    (st : List Nat × List (Node T × List Nat) × List Nat) :
    List Nat × List (Node T × List Nat) × List Nat :=
  (List.range 8).foldl (serStep cur) st

/-- The while loop of Node::serialize from src/node.rs: a FIFO queue of
indices into all_nodes still to process.  Fuel bounds the number of
iterations (one per tree node; exhaustion yields none); the out-of-bounds
branch models the source's assert panic and never fires. -/
def serLoop :
    Nat → List (Node T × List Nat) → List Nat → Option (List (Node T × List Nat))
  | _, an, [] => some an
  | 0, _, _ :: _ => none
  | fuel + 1, an, i :: rest =>
    match an.getD i (Node.mk .internal ⟨0, 0, 0⟩ 0 [], []) with
    | (cur, idx) =>
      if i < an.length then
        match serChildren cur (idx, an, rest) with
        | (idx', an', q') => serLoop fuel (an'.set i (cur, idx')) q'
      else none

/-- Node::serialize from src/node.rs: breadth-first flattening into a list
of (node, child-index array) records, the root at index 0; index 0 in a
child slot means "no child". -/
def Node.serialize (fuel : Nat) (n : Node T) : Option (List (Node T × List Nat)) :=
  serLoop fuel [(n, List.replicate 8 0)] [0]

/-- The per-entry scan in Node::deserialize: find the first child slot
whose helper index is nonzero but whose child is not yet attached.  The
record is only unwrapped when a nonzero helper index is met (Rust's
short-circuit ||); an unwrap of a missing record is a panic, modelled by
the outer none.  Returns some none when all 8 slots are ready. -/
def scanMissing (rec? : Option (Node T)) (idx : List Nat) :
    Nat → Nat → Option (Option Nat)
  | 0, _ => some none
  | remaining + 1, j =>
    if idx.getD j 0 = 0 then
      scanMissing rec? idx remaining (j + 1)
    else
      match rec? with
      | none => none        -- the source unwraps a moved-out record: panic
      | some nd =>
        if (nd.children.getD j none).isSome then
          scanMissing rec? idx remaining (j + 1)
        else
          some (some j)

/-- The while loop of Node::deserialize from src/node.rs: an explicit
stack of (node index, parent index, child slot in parent), the top at the
head.  Fuel bounds the iterations; none models the source's unwrap
panics on malformed input. -/
def deserLoop :
    Nat → List (Option (Node T) × List Nat) → List (Nat × Nat × Nat) →
      Option (List (Option (Node T) × List Nat))
  | _, an, [] => some an
  | 0, _, _ :: _ => none
  | fuel + 1, an, (cur, par, slot) :: rest =>
    match an.getD cur (none, []) with
    | (rec?, idx) =>
      if cur < an.length then
        match scanMissing rec? idx 8 0 with
        | none => none
        | some (some j) =>
          deserLoop fuel an ((idx.getD j 0, cur, j) :: (cur, par, slot) :: rest)
        | some none =>
          if cur = 0 then
            deserLoop fuel an rest
          else
            match rec? with
            | none => none  -- replace(..).unwrap() on a moved record: panic
            | some node =>
              let an' := an.set cur (none, idx)
              match an'.getD par (none, []) with
              | (some parentNode, pidx) =>
                if par < an'.length then
                  deserLoop fuel
                    (an'.set par
                      (some (parentNode.setChildren
                        (parentNode.children.set slot (some node))), pidx))
                    rest
                else none
              | (none, _) => none   -- parent record moved out: panic
      else none               -- all_nodes[cur] out of bounds: panic

/-- Node::deserialize from src/node.rs: rebuild a tree from the flattened
record list; the final replace(&mut all_nodes[0].0, None).unwrap(). -/
def Node.deserialize (fuel : Nat)
    (all_nodes : List (Option (Node T) × List Nat)) : Option (Node T) :=
  match deserLoop fuel all_nodes [(0, 0, 0)] with
  | some an =>
    match an.getD 0 (none, []) with
    | (some root, _) => if 0 < an.length then some root else none
    | (none, _) => none
  | none => none

/-- The conversion from Node::serialize's borrowed records to
Node::deserialize's owned ones: each &Node is cloned (Rust's derived
Clone is deep, so the cloned record keeps its attached children). -/
def toOwned (l : List (Node T × List Nat)) : List (Option (Node T) × List Nat) :=
  l.map (fun r => (some r.1, r.2))

/-! ### The Octree facade (src/octree.rs) -/

/-- Octree<T> from src/octree.rs. -/
structure Octree (T : Type) where
  auto_simplify : Bool
  dimension : Nat
  curr_lod_level : Nat
  max_lod_level : Nat
  min_dimension : Nat
  root : Node T

/-- Octree::new from src/octree.rs.  The source checks that dimension is a
power of two by computing (dimension as f32).log(2.0) and testing that its
fractional part is zero; floating point does not embed shallowly, so the
check is modelled by the exact integer condition dimension = 2 ^ log2
(dimension).  The two agree at every input appearing in a theorem below —
in particular at dimension 1, where the float computation is exact
(1.0f32.log(2.0) = 0.0) — but are not proved to agree in general; see the
discussion of claim C9. -/
def Octree.new (T : Type) [Inhabited T] (dimension : Nat) : Except Error (Octree T) :=
  let max_depth := Nat.log2 dimension
  if dimension ≠ 0 ∧ dimension = 2 ^ max_depth then
    .ok
      { auto_simplify := false
        dimension := dimension
        curr_lod_level := 1
        max_lod_level := max_depth
        min_dimension := 1
        root := Node.new ⟨0, 0, 0⟩ dimension }
  else
    .error (.invalidDimension dimension)

/-- Octree::insert from src/octree.rs (fuel as in Node.insert). -/
def Octree.insert [Inhabited T] [DecidableEq T] (fuel : Nat) (t : Octree T)
    (position : Vec3) (data : T) : Option (Octree T × Except Error Unit) :=
  match Node.insert fuel t.root position t.min_dimension t.auto_simplify data with
  | some (root', st) => some ({ t with root := root' }, st)
  | none => none

/-- Octree::get from src/octree.rs. -/
def Octree.get (t : Octree T) (position : Vec3) : Option T :=
  t.root.get position

/-- Octree::clear_at from src/octree.rs. -/
def Octree.clear_at [Inhabited T] (t : Octree T) (position : Vec3) :
    Option (Octree T × Except Error Unit) :=
  match t.root.clear position t.min_dimension with
  | some (root', st) => some ({ t with root := root' }, st)
  | none => none

/-- Checked u32 subtraction: Rust's `a - b` panics (in a checked build)
when b > a. -/
def checkedSub (a b : Nat) : Option Nat :=
  if b ≤ a then some (a - b) else none

/-- Octree::lod_down from src/octree.rs.  The subtraction level - 1 is on
u32, so it is checked; none models the panic.  On success the root is
collapsed one level and the LOD bookkeeping updated. -/
def Octree.lod_down [DecidableEq T] (t : Octree T) : Option (Octree T) :=
  let level :=
    if t.max_lod_level ≤ t.curr_lod_level + 1 then t.max_lod_level
    else t.curr_lod_level + 1
  match checkedSub level 1 with
  | none => none
  | some lm1 =>
    some { t with
      root := t.root.lod
      curr_lod_level := level
      min_dimension := 2 ^ lm1 }

/-! ## Geometry lemmas -/

/-- The octant bit-encoding as claimed by the specification:
(z_bit shifted left 2) or (y_bit shifted left 1) or x_bit, where a bit is
0 for the lower half of its axis (coordinate below the midpoint) and 1 for
the upper half.  Stated only to be compared with the source's
Octant.vector_diff. -/
def octantIndexSpec (rhs lhs : Vec3) : Nat :=
  (if lhs.z < rhs.z then 0 else 1) * 4 +
  (if lhs.y < rhs.y then 0 else 1) * 2 +
  (if lhs.x < rhs.x then 0 else 1)

lemma vector_diff_eq_bits (rhs lhs : Vec3) :
    Octant.vector_diff rhs lhs =
      (if lhs.y < rhs.y then 0 else 1) * 4 +
      (if lhs.z < rhs.z then 0 else 1) * 2 +
      (if lhs.x < rhs.x then 0 else 1) := by
  by_cases hz : lhs.z < rhs.z <;> by_cases hy : lhs.y < rhs.y <;>
    by_cases hx : lhs.x < rhs.x <;>
    simp [Octant.vector_diff, hz, hy, hx]

lemma offset_vector_diff (rhs lhs : Vec3) :
    Octant.offset (Octant.vector_diff rhs lhs) =
      ⟨if lhs.x < rhs.x then 0 else 1,
       if lhs.y < rhs.y then 0 else 1,
       if lhs.z < rhs.z then 0 else 1⟩ := by
  by_cases hz : lhs.z < rhs.z <;> by_cases hy : lhs.y < rhs.y <;>
    by_cases hx : lhs.x < rhs.x <;>
    simp [Octant.vector_diff, Octant.offset, hz, hy, hx]

lemma vector_diff_lt_8 (rhs lhs : Vec3) : Octant.vector_diff rhs lhs < 8 := by
  rw [vector_diff_eq_bits]
  by_cases hz : lhs.z < rhs.z <;> by_cases hy : lhs.y < rhs.y <;>
    by_cases hx : lhs.x < rhs.x <;> simp [hz, hy, hx]

/-- The half-open cubic region test, as a proposition. -/
def regionContains (mp : Vec3) (d : Nat) (p : Vec3) : Prop :=
  mp.x ≤ p.x ∧ p.x < mp.x + d ∧
  mp.y ≤ p.y ∧ p.y < mp.y + d ∧
  mp.z ≤ p.z ∧ p.z < mp.z + d

instance (mp : Vec3) (d : Nat) (p : Vec3) : Decidable (regionContains mp d p) := by
  unfold regionContains; infer_instance

lemma contains_iff (n : Node T) (p : Vec3) :
    n.contains p = true ↔ regionContains n.min_position n.dimension p := by
  simp [Node.contains, regionContains, and_assoc]

/-- A point of a node's region lies in the region of the child octant that
vector_diff assigns to it, whose min corner is child_min_position. -/
lemma child_region_contains (mp : Vec3) (h : Nat) (p : Vec3)
    (hc : regionContains mp (2 * h) p) :
    regionContains
      (mp + (Vec3.mk h h h).component_mul
        (Octant.offset (Octant.vector_diff (mp + ⟨h, h, h⟩) p)))
      h p := by
  obtain ⟨h1, h2, h3, h4, h5, h6⟩ := hc
  rw [offset_vector_diff]
  simp only [Vec3.add_def, Vec3.component_mul, regionContains] at *
  by_cases hx : p.x < mp.x + h <;> by_cases hy : p.y < mp.y + h <;>
    by_cases hz : p.z < mp.z + h <;>
    simp only [hx, hy, hz, if_true, if_false] <;> simp <;> omega

/-! ## List access lemmas -/

lemma getD_set_self {α : Type} (l : List (Option α)) (i : Nat) (x : Option α)
    (hi : i < l.length) : (l.set i x).getD i none = x := by
  induction l generalizing i with
  | nil => simp at hi
  | cons a rest ih =>
    cases i with
    | zero => simp
    | succ j =>
      have hs : (a :: rest).set (j + 1) x = a :: rest.set j x := rfl
      rw [hs, List.getD_cons_succ]
      exact ih j (by simpa using hi)

lemma getD_set_ne {α : Type} (l : List (Option α)) (i j : Nat) (x : Option α)
    (hij : i ≠ j) : (l.set i x).getD j none = l.getD j none := by
  induction l generalizing i j with
  | nil => simp
  | cons a rest ih =>
    cases i with
    | zero =>
      cases j with
      | zero => exact absurd rfl hij
      | succ j' => simp
    | succ i' =>
      cases j with
      | zero => simp
      | succ j' =>
        have hs : (a :: rest).set (i' + 1) x = a :: rest.set i' x := rfl
        rw [hs, List.getD_cons_succ, List.getD_cons_succ]
        exact ih i' j' (by omega)

/-! ## Well-formedness

A Node value is well formed when its child list has length 8 (the Rust
array type), and every present child has half its parent's dimension (at
least 1 — children are only ever created with dimension parent / 2 for a
parent of dimension at least 2) and sits at the child_min_position of its
slot.  Every tree reachable through the Octree API is well formed. -/

mutual

def Node.wfB : Node T → Bool
  | .mk _ mp d cs => (cs.length == 8) && wfChildren mp d cs 0

def wfChildren : Vec3 → Nat → List (Option (Node T)) → Nat → Bool
  | _, _, [], _ => true
  | mp, d, none :: rest, i => wfChildren mp d rest (i + 1)
  | mp, d, some c :: rest, i =>
    (c.dimension == d / 2) && (1 ≤ d / 2) &&
    decide (c.min_position =
      mp + (Vec3.mk (d / 2) (d / 2) (d / 2)).component_mul (Octant.offset i)) &&
    c.wfB && wfChildren mp d rest (i + 1)

end

lemma wf_length {n : Node T} (h : n.wfB = true) : n.children.length = 8 := by
  cases n with
  | mk t mp d cs =>
    simp only [Node.wfB, Bool.and_eq_true, beq_iff_eq] at h
    simpa using h.1

lemma wfChildren_getD (mp : Vec3) (d : Nat) :
    ∀ (cs : List (Option (Node T))) (j : Nat),
      wfChildren mp d cs j = true →
      ∀ (i : Nat) (c : Node T), cs.getD i none = some c →
        c.dimension = d / 2 ∧ 1 ≤ d / 2 ∧
        c.min_position =
          mp + (Vec3.mk (d / 2) (d / 2) (d / 2)).component_mul
            (Octant.offset (j + i)) ∧
        c.wfB = true := by
  intro cs
  induction cs with
  | nil => intro j _ i c hic; simp at hic
  | cons a rest ih =>
    intro j hw i c hic
    cases i with
    | zero =>
      simp only [List.getD_cons_zero] at hic
      subst hic
      simp only [wfChildren, Bool.and_eq_true, beq_iff_eq, decide_eq_true_eq] at hw
      obtain ⟨⟨⟨⟨hA, hB⟩, hC⟩, hD⟩, _⟩ := hw
      exact ⟨hA, hB, by simpa using hC, hD⟩
    | succ i' =>
      simp only [List.getD_cons_succ] at hic
      have hw' : wfChildren mp d rest (j + 1) = true := by
        cases a with
        | none => simpa [wfChildren] using hw
        | some c0 =>
          simp only [wfChildren, Bool.and_eq_true] at hw
          exact hw.2
      have := ih (j + 1) hw' i' c hic
      simpa [Nat.add_assoc, Nat.add_comm 1 i'] using this

/-- Unpacking well-formedness at a present child slot. -/
lemma wf_child {n : Node T} {i : Nat} {c : Node T} (hw : n.wfB = true)
    (hc : n.children.getD i none = some c) :
    c.dimension = n.dimension / 2 ∧ 1 ≤ n.dimension / 2 ∧
    c.min_position =
      n.child_min_position
        ⟨n.dimension / 2, n.dimension / 2, n.dimension / 2⟩ i ∧
    c.wfB = true := by
  cases n with
  | mk t mp d cs =>
    simp only [Node.wfB, Bool.and_eq_true, beq_iff_eq] at hw
    have := wfChildren_getD mp d cs 0 hw.2 i c (by simpa using hc)
    simpa [Node.child_min_position] using this

lemma wfChildren_replicate_none (mp : Vec3) (d : Nat) :
    ∀ (k j : Nat), wfChildren (T := T) mp d (List.replicate k none) j = true := by
  intro k
  induction k with
  | zero => intro j; simp [wfChildren]
  | succ k' ih => intro j; simpa [List.replicate, wfChildren] using ih (j + 1)

lemma wf_new [Inhabited T] (mp : Vec3) (d : Nat) :
    (Node.new (T := T) mp d).wfB = true := by
  have hwc : wfChildren (T := T) mp d (List.replicate 8 none) 0 = true := rfl
  simp only [Node.new, Node.wfB, Bool.and_eq_true, beq_iff_eq]
  exact ⟨by simp, by simpa using hwc⟩

/-! ## Accessor lemmas for field updates -/

@[simp] lemma Node.ty_setTy (n : Node T) (t : NodeTy T) : (n.setTy t).ty = t := by
  cases n; rfl

@[simp] lemma Node.min_position_setTy (n : Node T) (t : NodeTy T) :
    (n.setTy t).min_position = n.min_position := by cases n; rfl

@[simp] lemma Node.dimension_setTy (n : Node T) (t : NodeTy T) :
    (n.setTy t).dimension = n.dimension := by cases n; rfl

@[simp] lemma Node.children_setTy (n : Node T) (t : NodeTy T) :
    (n.setTy t).children = n.children := by cases n; rfl

@[simp] lemma Node.ty_setChildren (n : Node T) (cs : List (Option (Node T))) :
    (n.setChildren cs).ty = n.ty := by cases n; rfl

@[simp] lemma Node.min_position_setChildren (n : Node T) (cs : List (Option (Node T))) :
    (n.setChildren cs).min_position = n.min_position := by cases n; rfl

@[simp] lemma Node.dimension_setChildren (n : Node T) (cs : List (Option (Node T))) :
    (n.setChildren cs).dimension = n.dimension := by cases n; rfl

@[simp] lemma Node.children_setChildren (n : Node T) (cs : List (Option (Node T))) :
    (n.setChildren cs).children = cs := by cases n; rfl

/-- contains only looks at min_position and dimension. -/
lemma contains_congr {n n' : Node T} (hm : n'.min_position = n.min_position)
    (hd : n'.dimension = n.dimension) (p : Vec3) : n'.contains p = n.contains p := by
  simp [Node.contains, hm, hd]

@[simp] lemma contains_setTy (n : Node T) (t : NodeTy T) (p : Vec3) :
    (n.setTy t).contains p = n.contains p :=
  contains_congr (by simp) (by simp) p

@[simp] lemma contains_setChildren (n : Node T) (cs : List (Option (Node T))) (p : Vec3) :
    (n.setChildren cs).contains p = n.contains p :=
  contains_congr (by simp) (by simp) p

lemma mem_of_getD {α : Type} {l : List (Option α)} {i : Nat} {c : α}
    (h : l.getD i none = some c) : some c ∈ l := by
  unfold List.getD at h
  cases hg : l[i]? with
  | none => simp [hg] at h
  | some x =>
    have hmem := List.getElem?_mem hg
    simp [hg] at h
    rwa [h] at hmem

/-! ## Evaluation lemmas for Node.get -/

lemma get_not_contains {n : Node T} {p : Vec3} (h : n.contains p = false) :
    n.get p = none := by
  cases n with
  | mk t mp d cs => simp [Node.get, h]

lemma get_leaf_of_contains {n : Node T} {p : Vec3} {v : T}
    (hty : n.ty = .leaf v) (h : n.contains p = true) : n.get p = some v := by
  cases n with
  | mk t mp d cs =>
    simp only [Node.ty_mk] at hty
    subst hty
    simp [Node.get, h]

lemma get_internal_child {n : Node T} {p : Vec3} {c : Node T}
    (hty : n.ty = .internal) (h : n.contains p = true)
    (hc : n.children.getD
      (Octant.vector_diff
        (n.min_position +
          ⟨n.dimension / 2, n.dimension / 2, n.dimension / 2⟩) p) none = some c) :
    n.get p = c.get p := by
  cases n with
  | mk t mp d cs =>
    simp only [Node.ty_mk] at hty
    subst hty
    simp only [Node.children_mk, Node.min_position_mk, Node.dimension_mk] at hc
    simp only [Node.get, Node.child_info, h, not_true_eq_false, if_false, if_true,
      Node.min_position_mk, Node.dimension_mk]
    rw [getChild_eq]
    simp only [Vec3.add_def, List.getD_eq_getElem?_getD] at hc
    simp [hc]

lemma get_internal_none {n : Node T} {p : Vec3}
    (hty : n.ty = .internal) (h : n.contains p = true)
    (hc : n.children.getD
      (Octant.vector_diff
        (n.min_position +
          ⟨n.dimension / 2, n.dimension / 2, n.dimension / 2⟩) p) none = none) :
    n.get p = none := by
  cases n with
  | mk t mp d cs =>
    simp only [Node.ty_mk] at hty
    subst hty
    simp only [Node.children_mk, Node.min_position_mk, Node.dimension_mk] at hc
    simp only [Node.get, Node.child_info, h, not_true_eq_false, if_false, if_true,
      Node.min_position_mk, Node.dimension_mk]
    rw [getChild_eq]
    simp only [Vec3.add_def, List.getD_eq_getElem?_getD] at hc
    simp [hc]

lemma child_info_of_contains {n : Node T} {p : Vec3} (h : n.contains p = true) :
    n.child_info p =
      some ⟨n.dimension / 2,
        ⟨n.dimension / 2, n.dimension / 2, n.dimension / 2⟩,
        Octant.vector_diff
          (n.min_position +
            ⟨n.dimension / 2, n.dimension / 2, n.dimension / 2⟩) p⟩ := by
  simp [Node.child_info, h]

/-! ## collectUniform and Node.simplify lemmas -/

lemma collectUniform_some_acc [DecidableEq T] :
    ∀ (l : List (Option (Node T))) (d0 : T) (r : Option T),
      collectUniform l (some d0) = some r →
      r = some d0 ∧ ∀ x ∈ l, ∃ c, x = some c ∧ c.ty = .leaf d0 := by
  intro l
  induction l with
  | nil =>
    intro d0 r h
    simp only [collectUniform, Option.some.injEq] at h
    exact ⟨h.symm, by simp⟩
  | cons a rest ih =>
    intro d0 r h
    cases a with
    | none => simp [collectUniform] at h
    | some c =>
      cases hty : c.ty with
      | internal => simp [collectUniform, hty] at h
      | leaf d =>
        simp only [collectUniform, hty] at h
        by_cases hdd : d0 = d
        · subst hdd
          simp only [if_pos rfl] at h
          obtain ⟨hr, hrest⟩ := ih d0 r h
          refine ⟨hr, ?_⟩
          intro x hx
          rcases List.mem_cons.mp hx with hx | hx
          · exact ⟨c, hx, hty⟩
          · exact hrest x hx
        · simp [if_neg hdd] at h

lemma collectUniform_none_some [DecidableEq T] :
    ∀ (l : List (Option (Node T))) (d : T),
      collectUniform l none = some (some d) →
      ∀ x ∈ l, ∃ c, x = some c ∧ c.ty = .leaf d := by
  intro l d h
  cases l with
  | nil => simp [collectUniform] at h
  | cons a rest =>
    cases a with
    | none => simp [collectUniform] at h
    | some c =>
      cases hty : c.ty with
      | internal => simp [collectUniform, hty] at h
      | leaf d1 =>
        simp only [collectUniform, hty] at h
        obtain ⟨hr, hrest⟩ := collectUniform_some_acc rest d1 (some d) h
        have hd : d = d1 := by simpa using hr
        subst hd
        intro x hx
        rcases List.mem_cons.mp hx with hx | hx
        · exact ⟨c, hx, hty⟩
        · exact hrest x hx

lemma collectUniform_acc_complete [DecidableEq T] :
    ∀ (l : List (Option (Node T))) (d : T),
      (∀ x ∈ l, ∃ c, x = some c ∧ c.ty = .leaf d) →
      collectUniform l (some d) = some (some d) := by
  intro l
  induction l with
  | nil => intro d _; simp [collectUniform]
  | cons a rest ih =>
    intro d hall
    obtain ⟨c, hc, hty⟩ := hall a (by simp)
    subst hc
    simp only [collectUniform, hty, if_pos rfl]
    exact ih d (fun x hx => hall x (List.mem_cons_of_mem _ hx))

lemma collectUniform_complete [DecidableEq T]
    {l : List (Option (Node T))} {d : T} (hne : l ≠ [])
    (hall : ∀ x ∈ l, ∃ c, x = some c ∧ c.ty = .leaf d) :
    collectUniform l none = some (some d) := by
  cases l with
  | nil => exact absurd rfl hne
  | cons a rest =>
    obtain ⟨c, hc, hty⟩ := hall a (by simp)
    subst hc
    simp only [collectUniform, hty]
    exact collectUniform_acc_complete rest d
      (fun x hx => hall x (List.mem_cons_of_mem _ hx))

/-- When simplify succeeds, the node became a leaf holding the value all
its (present, leaf) children carried. -/
lemma simplify_sound [DecidableEq T] {n n' : Node T}
    (h : n.simplify = (true, n')) :
    ∃ d, n' = Node.mk (.leaf d) n.min_position n.dimension (List.replicate 8 none) ∧
      ∀ (i : Nat) (c : Node T), n.children.getD i none = some c → c.ty = .leaf d := by
  unfold Node.simplify at h
  cases hc : collectUniform n.children none with
  | none => simp [hc] at h
  | some r =>
    cases r with
    | none => simp [hc] at h
    | some d =>
      refine ⟨d, ?_, ?_⟩
      · simp only [hc, Prod.mk.injEq] at h
        exact h.2.symm
      · intro i c hgd
        obtain ⟨c', hx, hty⟩ :=
          collectUniform_none_some n.children d hc (some c) (mem_of_getD hgd)
        have : c = c' := by simpa using hx
        subst this
        exact hty

/-- When simplify fails, the node is returned unchanged. -/
lemma simplify_false [DecidableEq T] {n n' : Node T}
    (h : n.simplify = (false, n')) : n' = n := by
  unfold Node.simplify at h
  cases hc : collectUniform n.children none with
  | none => simp [hc] at h; exact h.symm
  | some r =>
    cases r with
    | none => simp [hc] at h; exact h.symm
    | some d => simp [hc] at h

/-! ## materialize lemmas -/

lemma materialize_length [Inhabited T] (n : Node T) (d3 : Vec3) (cd o : Nat) (v : T) :
    (materialize n d3 cd o v).length = n.children.length := by
  unfold materialize
  generalize n.children = cs
  generalize List.range 8 = is
  induction is generalizing cs with
  | nil => rfl
  | cons i rest ih =>
    simp only [List.foldl_cons]
    rw [ih]
    by_cases hio : i = o <;> simp [hio]

lemma materialize_getD_octant [Inhabited T] (n : Node T) (d3 : Vec3) (cd o : Nat) (v : T) :
    (materialize n d3 cd o v).getD o none = n.children.getD o none := by
  unfold materialize
  generalize n.children = cs
  generalize List.range 8 = is
  induction is generalizing cs with
  | nil => rfl
  | cons i rest ih =>
    simp only [List.foldl_cons]
    rw [ih]
    by_cases hio : i = o
    · simp [hio]
    · simp only [if_neg hio]
      exact getD_set_ne _ _ _ _ hio

/-! ## Node.insert correctness -/

/-- After attaching a child that answers the query, the tail of insert
(retagging Internal, optional simplify) preserves the answer. -/
lemma insertFinish_get [Inhabited T] [DecidableEq T] {n2 : Node T} {p : Vec3}
    {v : T} {child' : Node T} (ds : Bool)
    (hcont2 : n2.contains p = true)
    (hchild : n2.children.getD
      (Octant.vector_diff
        (n2.min_position +
          ⟨n2.dimension / 2, n2.dimension / 2, n2.dimension / 2⟩) p) none = some child')
    (hcget : child'.get p = some v)
    (hcc : child'.contains p = true) :
    ∃ n', insertFinish n2 ds = some (n', .ok ()) ∧ n'.get p = some v ∧
      n'.min_position = n2.min_position ∧ n'.dimension = n2.dimension := by
  have hcont3 : (n2.setTy (T := T) .internal).contains p = true := by
    simpa using hcont2
  have hchild3 : (n2.setTy (T := T) .internal).children.getD
      (Octant.vector_diff
        ((n2.setTy .internal).min_position +
          ⟨(n2.setTy .internal).dimension / 2, (n2.setTy .internal).dimension / 2,
           (n2.setTy .internal).dimension / 2⟩) p) none = some child' := by
    simpa using hchild
  cases ds with
  | false =>
    refine ⟨n2.setTy .internal, rfl, ?_, by simp, by simp⟩
    rw [get_internal_child (by simp) hcont3 hchild3]
    exact hcget
  | true =>
    cases hsi : (n2.setTy (T := T) .internal).simplify with
    | mk b n4 =>
      cases b with
      | false =>
        have hn4 : n4 = n2.setTy .internal := simplify_false hsi
        subst hn4
        refine ⟨n2.setTy .internal, by simp [insertFinish, hsi], ?_, by simp, by simp⟩
        rw [get_internal_child (by simp) hcont3 hchild3]
        exact hcget
      | true =>
        obtain ⟨dd, hn4, hall⟩ := simplify_sound hsi
        have hcty : child'.ty = .leaf dd := hall _ _ hchild3
        have : child'.get p = some dd := get_leaf_of_contains hcty hcc
        have hvd : dd = v := by
          rw [hcget] at this
          exact (Option.some.injEq _ _ ▸ this).symm
        refine ⟨n4, by simp [insertFinish, hsi], ?_, ?_, ?_⟩
        · subst hvd
          apply get_leaf_of_contains (by simp [hn4])
          have h := hcont2
          simp only [hn4, Node.contains, Node.min_position_mk, Node.dimension_mk,
            Node.min_position_setTy, Node.dimension_setTy] at h ⊢
          exact h
        · simp [hn4]
        · simp [hn4]

lemma two_pow_half {k : Nat} (hk : 1 ≤ k) : (2 : Nat) ^ k / 2 = 2 ^ (k - 1) := by
  cases k with
  | zero => omega
  | succ k' => simp [Nat.pow_succ, Nat.mul_div_cancel]

lemma two_pow_two_mul {k : Nat} (hk : 1 ≤ k) : (2 : Nat) ^ k = 2 * 2 ^ (k - 1) := by
  cases k with
  | zero => omega
  | succ k' => simp [Nat.pow_succ]; ring

/-- Write-then-read at the Node level: on a well-formed node of dimension
2^k, inserting value v at a contained point p with minimum dimension 2^m
(m ≤ k) succeeds and makes get return v, for either value of the
auto-simplify flag; the node's bounds are unchanged. -/
lemma insert_get_aux [Inhabited T] [DecidableEq T] :
    ∀ (k m : Nat), m ≤ k → ∀ (fuel : Nat) (n : Node T) (p : Vec3) (ds : Bool) (v : T),
      n.wfB = true → n.dimension = 2 ^ k → n.contains p = true → k - m < fuel →
      ∃ n', Node.insert fuel n p (2 ^ m) ds v = some (n', .ok ()) ∧
        n'.get p = some v ∧ n'.min_position = n.min_position ∧
        n'.dimension = n.dimension := by
  intro k
  induction k using Nat.strong_induction_on with
  | _ k ih =>
    intro m hmk fuel n p ds v hwf hdim hcont hfuel
    cases fuel with
    | zero => omega
    | succ fl =>
      by_cases hterm : n.dimension = 2 ^ m
      · refine ⟨n.setTy (.leaf v), ?_, ?_, by simp, by simp⟩
        · simp [Node.insert, hcont, hterm]
        · refine get_leaf_of_contains (by simp) ?_
          simpa using hcont
      · have hmltk : m < k := by
          rcases Nat.lt_or_ge m k with h | h
          · exact h
          · exact absurd (by rw [hdim]; congr 1; omega) hterm
        have hk1 : 1 ≤ k := by omega
        have hhalf : n.dimension / 2 = 2 ^ (k - 1) := by
          rw [hdim]; exact two_pow_half hk1
        have hlen : n.children.length = 8 := wf_length hwf
        -- the octant insert descends into
        set o := Octant.vector_diff
          (n.min_position +
            ⟨n.dimension / 2, n.dimension / 2, n.dimension / 2⟩) p with ho
        have holt : o < 8 := vector_diff_lt_8 _ _
        -- the point lies in that child's region
        have hreg : regionContains
            (n.min_position +
              (Vec3.mk (n.dimension / 2) (n.dimension / 2) (n.dimension / 2)).component_mul
                (Octant.offset o)) (n.dimension / 2) p := by
          rw [ho, hhalf]
          have h2 : regionContains n.min_position (2 * 2 ^ (k - 1)) p := by
            have := (contains_iff n p).mp hcont
            rwa [hdim, two_pow_two_mul hk1] at this
          have := child_region_contains n.min_position (2 ^ (k - 1)) p h2
          simpa [hhalf] using this
        -- name the node after the (possible) sibling materialization
        set n1 : Node T :=
          (if n.is_leaf && (n.dimension / 2 == 2 ^ m) then
            match n.leaf_data with
            | some w =>
              n.setChildren
                (materialize n
                  ⟨n.dimension / 2, n.dimension / 2, n.dimension / 2⟩
                  (n.dimension / 2) o w)
            | none => n
          else n) with hn1
        have hn1min : n1.min_position = n.min_position := by
          rw [hn1]
          by_cases hc1 : n.is_leaf && (n.dimension / 2 == 2 ^ m) <;>
            cases hld : n.leaf_data <;> simp [hc1, hld]
        have hn1dim : n1.dimension = n.dimension := by
          rw [hn1]
          by_cases hc1 : n.is_leaf && (n.dimension / 2 == 2 ^ m) <;>
            cases hld : n.leaf_data <;> simp [hc1, hld]
        have hn1len : n1.children.length = 8 := by
          rw [hn1]
          by_cases hc1 : n.is_leaf && (n.dimension / 2 == 2 ^ m) <;>
            cases hld : n.leaf_data <;>
            simp [hc1, hld, materialize_length, hlen]
        have hn1o : n1.children.getD o none = n.children.getD o none := by
          rw [hn1]
          by_cases hc1 : (n.is_leaf && (n.dimension / 2 == 2 ^ m)) = true
          · rw [if_pos hc1]
            cases hld : n.leaf_data
            · rfl
            · simp only [Node.children_setChildren]
              exact materialize_getD_octant _ _ _ _ _
          · rw [if_neg hc1]
        -- the unfolded goal
        have hunf : Node.insert (fl + 1) n p (2 ^ m) ds v =
            match n1.children.getD o none with
            | some child =>
              match Node.insert fl child p (2 ^ m) ds v with
              | some (child', .ok _) =>
                insertFinish
                  (n1.setChildren (n1.children.set o (some child'))) ds
              | _ => none
            | none =>
              match Node.insert fl
                  (Node.new (n1.child_min_position
                    ⟨n.dimension / 2, n.dimension / 2, n.dimension / 2⟩ o)
                    (n.dimension / 2)) p (2 ^ m) ds v with
              | some (node', .ok _) =>
                insertFinish
                  (n1.setChildren (n1.children.set o (some node'))) ds
              | _ => none := by
          simp only [Node.insert, hcont, not_true_eq_false, if_false,
            hterm, child_info_of_contains hcont, ← ho, ← hn1]
        have hfl : (k - 1) - m < fl := by omega
        -- common tail given an answering child to attach at slot o
        have tail : ∀ child' : Node T, child'.get p = some v →
            child'.contains p = true →
            ∃ n', insertFinish (n1.setChildren (n1.children.set o (some child'))) ds =
                some (n', .ok ()) ∧
              n'.get p = some v ∧ n'.min_position = n.min_position ∧
              n'.dimension = n.dimension := by
          intro child' hg hcc
          have hset : (n1.setChildren (n1.children.set o (some child'))).children.getD
              (Octant.vector_diff
                ((n1.setChildren (n1.children.set o (some child'))).min_position +
                  ⟨(n1.setChildren (n1.children.set o (some child'))).dimension / 2,
                   (n1.setChildren (n1.children.set o (some child'))).dimension / 2,
                   (n1.setChildren (n1.children.set o (some child'))).dimension / 2⟩)
                p) none = some child' := by
            simp only [Node.children_setChildren, Node.min_position_setChildren,
              Node.dimension_setChildren, hn1min, hn1dim, ← ho]
            exact getD_set_self _ _ _ (by omega)
          have hcont2 : (n1.setChildren (n1.children.set o (some child'))).contains p = true := by
            have hn1c : n1.contains p = n.contains p := by
              simp [Node.contains, hn1min, hn1dim]
            simp only [contains_setChildren, hn1c]
            exact hcont
          obtain ⟨n', he, hg', hm', hd'⟩ := insertFinish_get ds hcont2 hset hg hcc
          exact ⟨n', he, hg', by simpa [hn1min] using hm', by simpa [hn1dim] using hd'⟩
        cases hcase : n.children.getD o none with
        | some child =>
          obtain ⟨hcdim, _, hcmin, hcwf⟩ := wf_child hwf hcase
          have hccont : child.contains p = true := by
            rw [contains_iff]
            rw [hcdim, hcmin]
            simpa [Node.child_min_position, hhalf] using (by rwa [hhalf] at hreg)
          obtain ⟨child', hins, hget, hmin', hdim'⟩ :=
            ih (k - 1) (by omega) m (by omega) fl child p ds v hcwf
              (by rw [hcdim, hhalf]) hccont hfl
          have hccont' : child'.contains p = true := by
            rw [contains_congr hmin' hdim']; exact hccont
          obtain ⟨n', he, hg', hm', hd'⟩ := tail child' hget hccont'
          refine ⟨n', ?_, hg', hm', hd'⟩
          simp only [hunf, hn1o, hcase, hins]
          exact he
        | none =>
          have hfmin : (Node.new (T := T) (n1.child_min_position
              ⟨n.dimension / 2, n.dimension / 2, n.dimension / 2⟩ o)
              (n.dimension / 2)).min_position =
              n1.child_min_position
                ⟨n.dimension / 2, n.dimension / 2, n.dimension / 2⟩ o := by
            simp [Node.new]
          have hfcont : (Node.new (T := T) (n1.child_min_position
              ⟨n.dimension / 2, n.dimension / 2, n.dimension / 2⟩ o)
              (n.dimension / 2)).contains p = true := by
            rw [contains_iff, hfmin]
            simp only [Node.new, Node.dimension_mk]
            simpa [Node.child_min_position, hn1min] using hreg
          obtain ⟨child', hins, hget, hmin', hdim'⟩ :=
            ih (k - 1) (by omega) m (by omega) fl
              (Node.new (n1.child_min_position
                ⟨n.dimension / 2, n.dimension / 2, n.dimension / 2⟩ o)
                (n.dimension / 2)) p ds v (wf_new _ _)
              (by simp [Node.new, hhalf]) hfcont hfl
          have hccont' : child'.contains p = true := by
            rw [contains_congr hmin' hdim']; exact hfcont
          obtain ⟨n', he, hg', hm', hd'⟩ := tail child' hget hccont'
          refine ⟨n', ?_, hg', hm', hd'⟩
          simp only [hunf, hn1o, hcase, hins]
          exact he

/-! ## Claim C1 -/

/-- C1: for every in-bounds point p (each coordinate within [0, domain
dimension) on its axis, i.e. contains p) of a well-formed tree of
power-of-two dimension, and every value v, insert(p, v) succeeds and
afterwards get(p) returns Some(v); this holds for any prior well-formed
tree state (trees reachable through the API are well formed with
dimension 2^k and minimum dimension 2^m, m ≤ k) and for either value of
the auto-simplify flag.  Fuel exceeding the descent depth k - m is enough,
so the source recursion terminates without exhausting it. -/
theorem claim_C1_insert_then_get [Inhabited T] [DecidableEq T]
    (k m fuel : Nat) (n : Node T) (p : Vec3) (ds : Bool) (v : T)
    (hwf : n.wfB = true) (hdim : n.dimension = 2 ^ k) (hm : m ≤ k)
    (hcont : n.contains p = true) (hfuel : k - m < fuel) :
    ∃ n', Node.insert fuel n p (2 ^ m) ds v = some (n', .ok ()) ∧
      n'.get p = some v := by
  obtain ⟨n', h1, h2, _, _⟩ := insert_get_aux k m hm fuel n p ds v hwf hdim hcont hfuel
  exact ⟨n', h1, h2⟩

theorem claim_C1_witness :
    (Node.new (T := Nat) ⟨0, 0, 0⟩ 2).wfB = true ∧
    (Node.new (T := Nat) ⟨0, 0, 0⟩ 2).contains ⟨0, 1, 0⟩ = true ∧
    (∃ n', Node.insert 2 (Node.new (T := Nat) ⟨0, 0, 0⟩ 2) ⟨0, 1, 0⟩ (2 ^ 0) true 5 =
        some (n', .ok ()) ∧ n'.get ⟨0, 1, 0⟩ = some 5) :=
  ⟨by decide, by decide,
    claim_C1_insert_then_get 1 0 2 (Node.new ⟨0, 0, 0⟩ 2) ⟨0, 1, 0⟩ true 5
      (by decide) (by decide) (by decide) (by decide) (by decide)⟩

/-! ## Claim C5 -/

/-- C5 counterexample: at the point one step below the midpoint on x and y
but at or above it on z (lower x half, lower y half, upper z half), the
source's vector_diff yields octant 2, while the claimed encoding
(z_bit shifted left 2) or (y_bit shifted left 1) or x_bit yields 4. -/
theorem claim_C5_counterexample :
    Octant.vector_diff ⟨1, 1, 1⟩ ⟨0, 0, 1⟩ = 2 ∧
    octantIndexSpec ⟨1, 1, 1⟩ ⟨0, 0, 1⟩ = 4 ∧
    Octant.vector_diff ⟨1, 1, 1⟩ ⟨0, 0, 1⟩ ≠ octantIndexSpec ⟨1, 1, 1⟩ ⟨0, 0, 1⟩ := by
  decide

/-- C5 amended: the destination octant index is obtained by comparing each
coordinate of the point against the node's midpoint (min_corner +
dimension/2 per axis, the rhs argument of vector_diff), taking 0 for the
lower half and 1 for the upper half, and combining the bits as
(y_bit shifted left 2) or (z_bit shifted left 1) or x_bit — so octant 0 is
(low, low, low) and octant 7 is (high, high, high) — and the child's min
corner for octant k is min_corner + child_dimension * the corner vector
in the unit cube matching that same encoding (Octant.offset agrees with
the bits, and child_min_position multiplies it componentwise by the child
dimension). -/
theorem claim_C5_amended (n : Node T) (position : Vec3) (cd : Nat) (o : Nat) :
    (∀ ci, n.child_info position = some ci →
      ci.octant =
        Octant.vector_diff
          (n.min_position +
            ⟨n.dimension / 2, n.dimension / 2, n.dimension / 2⟩) position ∧
      ci.dimension = n.dimension / 2) ∧
    Octant.vector_diff
        (n.min_position + ⟨n.dimension / 2, n.dimension / 2, n.dimension / 2⟩)
        position =
      (if position.y < n.min_position.y + n.dimension / 2 then 0 else 1) * 4 +
      (if position.z < n.min_position.z + n.dimension / 2 then 0 else 1) * 2 +
      (if position.x < n.min_position.x + n.dimension / 2 then 0 else 1) ∧
    Octant.offset
        (Octant.vector_diff
          (n.min_position + ⟨n.dimension / 2, n.dimension / 2, n.dimension / 2⟩)
          position) =
      ⟨if position.x < n.min_position.x + n.dimension / 2 then 0 else 1,
       if position.y < n.min_position.y + n.dimension / 2 then 0 else 1,
       if position.z < n.min_position.z + n.dimension / 2 then 0 else 1⟩ ∧
    Octant.offset 0 = ⟨0, 0, 0⟩ ∧ Octant.offset 7 = ⟨1, 1, 1⟩ ∧
    n.child_min_position ⟨cd, cd, cd⟩ o =
      ⟨n.min_position.x + cd * (Octant.offset o).x,
       n.min_position.y + cd * (Octant.offset o).y,
       n.min_position.z + cd * (Octant.offset o).z⟩ := by
  refine ⟨?_, ?_, ?_, rfl, rfl, rfl⟩
  · intro ci hci
    unfold Node.child_info at hci
    by_cases hc : n.contains position
    · simp only [hc, if_true, Option.some.injEq] at hci
      subst hci
      exact ⟨rfl, rfl⟩
    · simp [hc] at hci
  · simpa using vector_diff_eq_bits
      (n.min_position + ⟨n.dimension / 2, n.dimension / 2, n.dimension / 2⟩) position
  · simpa using offset_vector_diff
      (n.min_position + ⟨n.dimension / 2, n.dimension / 2, n.dimension / 2⟩) position

theorem claim_C5_amended_witness :
    (∀ ci, (Node.new (T := Nat) ⟨0, 0, 0⟩ 4).child_info ⟨1, 3, 2⟩ = some ci →
      ci.octant = Octant.vector_diff ⟨2, 2, 2⟩ ⟨1, 3, 2⟩ ∧ ci.dimension = 2) ∧
    Octant.vector_diff ⟨2, 2, 2⟩ ⟨1, 3, 2⟩ = 1 * 4 + 1 * 2 + 0 ∧
    Octant.offset (Octant.vector_diff ⟨2, 2, 2⟩ ⟨1, 3, 2⟩) = ⟨0, 1, 1⟩ ∧
    Octant.offset 0 = ⟨0, 0, 0⟩ ∧ Octant.offset 7 = ⟨1, 1, 1⟩ ∧
    (Node.new (T := Nat) ⟨0, 0, 0⟩ 4).child_min_position ⟨2, 2, 2⟩ 6 =
      ⟨0 + 2 * 0, 0 + 2 * 1, 0 + 2 * 1⟩ := by
  have h := claim_C5_amended (Node.new (T := Nat) ⟨0, 0, 0⟩ 4) ⟨1, 3, 2⟩ 2 6
  obtain ⟨h1, h2, h3, h4, h5, h6⟩ := h
  refine ⟨?_, ?_, ?_, h4, h5, by simpa using h6⟩
  · intro ci hci
    have := h1 ci hci
    simpa using this
  · simpa using h2
  · simpa using h3

/-! ## Claim C8 -/

/-- C8: on a node whose region is the full domain (min corner at the
origin, side length d), a point with some coordinate at least d is out of
bounds: insert and clear return Err(InvalidPosition) leaving the tree
value exactly as it was (the returned node is n itself), and get returns
None.  Fuel at least 1 only ensures the modelled insert enters its body. -/
theorem claim_C8_bounds_rejection [Inhabited T] [DecidableEq T]
    (n : Node T) (p : Vec3) (md fuel : Nat) (ds : Bool) (v : T)
    (hmin : n.min_position = ⟨0, 0, 0⟩)
    (hp : n.dimension ≤ p.x ∨ n.dimension ≤ p.y ∨ n.dimension ≤ p.z)
    (hfuel : 1 ≤ fuel) :
    Node.insert fuel n p md ds v = some (n, .error (.invalidPosition p.x p.y p.z)) ∧
    n.clear p md = some (n, .error (.invalidPosition p.x p.y p.z)) ∧
    n.get p = none := by
  have hcont : n.contains p = false := by
    simp only [Node.contains, hmin]
    rcases hp with h | h | h <;> simp <;> omega
  refine ⟨?_, ?_, get_not_contains hcont⟩
  · obtain ⟨fl, rfl⟩ : ∃ fl, fuel = fl + 1 :=
      ⟨fuel - 1, by omega⟩
    simp [Node.insert, hcont]
  · cases n with
    | mk t mp d cs => simp [Node.clear, hcont]

theorem claim_C8_witness :
    (Node.new (T := Nat) ⟨0, 0, 0⟩ 4).min_position = ⟨0, 0, 0⟩ ∧
    ((Node.new (T := Nat) ⟨0, 0, 0⟩ 4).dimension ≤ 1 ∨
      (Node.new (T := Nat) ⟨0, 0, 0⟩ 4).dimension ≤ 2 ∨
      (Node.new (T := Nat) ⟨0, 0, 0⟩ 4).dimension ≤ 9) ∧
    (Node.insert 3 (Node.new (T := Nat) ⟨0, 0, 0⟩ 4) ⟨1, 2, 9⟩ 1 false 7 =
      some (Node.new ⟨0, 0, 0⟩ 4, .error (.invalidPosition 1 2 9)) ∧
    (Node.new (T := Nat) ⟨0, 0, 0⟩ 4).clear ⟨1, 2, 9⟩ 1 =
      some (Node.new ⟨0, 0, 0⟩ 4, .error (.invalidPosition 1 2 9)) ∧
    (Node.new (T := Nat) ⟨0, 0, 0⟩ 4).get ⟨1, 2, 9⟩ = none) :=
  ⟨by decide, by decide,
    claim_C8_bounds_rejection (Node.new ⟨0, 0, 0⟩ 4) ⟨1, 2, 9⟩ 1 3 false 7
      (by decide) (by decide) (by decide)⟩

/-! ## Decidable equality of Node values -/

mutual

def Node.beq [DecidableEq T] : Node T → Node T → Bool
  | .mk t1 m1 d1 cs1, .mk t2 m2 d2 cs2 =>
    decide (t1 = t2) && decide (m1 = m2) && decide (d1 = d2) && beqChildren cs1 cs2

def beqChildren [DecidableEq T] : List (Option (Node T)) → List (Option (Node T)) → Bool
  | [], [] => true
  | none :: r1, none :: r2 => beqChildren r1 r2
  | some a :: r1, some b :: r2 => Node.beq a b && beqChildren r1 r2
  | _, _ => false

end

mutual

theorem Node.beq_iff [DecidableEq T] : ∀ (a b : Node T), Node.beq a b = true ↔ a = b
  | .mk t1 m1 d1 cs1, .mk t2 m2 d2 cs2 => by
    simp only [Node.beq, Bool.and_eq_true, decide_eq_true_eq,
      beqChildren_iff cs1 cs2, Node.mk.injEq]
    tauto

theorem beqChildren_iff [DecidableEq T] :
    ∀ (l1 l2 : List (Option (Node T))), beqChildren l1 l2 = true ↔ l1 = l2
  | [], [] => by simp [beqChildren]
  | [], _ :: _ => by simp [beqChildren]
  | _ :: _, [] => by simp [beqChildren]
  | none :: r1, none :: r2 => by
    simp [beqChildren, beqChildren_iff r1 r2]
  | none :: r1, some b :: r2 => by simp [beqChildren]
  | some a :: r1, none :: r2 => by simp [beqChildren]
  | some a :: r1, some b :: r2 => by
    simp [beqChildren, Node.beq_iff a b, beqChildren_iff r1 r2]

end

instance [DecidableEq T] : DecidableEq (Node T) := fun a b =>
  decidable_of_iff (Node.beq a b = true) (Node.beq_iff a b)

deriving instance DecidableEq for Octree

deriving instance DecidableEq for Except

/-! ## Node.clear lemmas -/

/-- The octant a point descends into at a node (the octant field of
child_info when contains holds). -/
def descentOctant (n : Node T) (p : Vec3) : Nat :=
  Octant.vector_diff
    (n.min_position + ⟨n.dimension / 2, n.dimension / 2, n.dimension / 2⟩) p

lemma clearChild_eq [Inhabited T] (cs : List (Option (Node T))) (i : Nat)
    (p : Vec3) (m : Nat) (tl : Bool) :
    clearChild cs i p m tl =
      match cs.getD i none with
      | none => some cs
      | some c =>
        match c.clear p m with
        | some (c', .ok _) =>
          some (cs.set i (some (c'.setTy (if tl then .leaf default else .internal))))
        | _ => none := by
  induction cs generalizing i with
  | nil => cases i <;> rfl
  | cons a rest ih =>
    cases i with
    | zero =>
      cases a with
      | none => rfl
      | some c =>
        simp only [clearChild, List.getD_cons_zero]
        cases hcl : c.clear p m with
        | none => rfl
        | some r =>
          obtain ⟨c', st⟩ := r
          cases st with
          | ok u => rfl
          | error e => rfl
    | succ j =>
      have hstep : clearChild (a :: rest) (j + 1) p m tl =
          match clearChild rest j p m tl with
          | some rest' => some (a :: rest')
          | none => none := by
        cases a <;> rfl
      rw [hstep, ih j, List.getD_cons_succ]
      cases hg : rest.getD j none with
      | none => rfl
      | some c =>
        dsimp only
        cases hcl : c.clear p m with
        | none => rfl
        | some r =>
          obtain ⟨c', st⟩ := r
          cases st with
          | ok u => rfl
          | error e => rfl

/-- One-step unfolding of Node.clear at a contained point. -/
lemma clear_unfold [Inhabited T] {n : Node T} {p : Vec3} {m : Nat}
    (hcont : n.contains p = true) :
    n.clear p m =
      if n.is_leaf && (n.dimension / 2 == m) then
        some (n.setChildren (wipeChildren n.children), .ok ())
      else
        match clearChild n.children (descentOctant n p) p m
            (n.is_leaf || (n.dimension / 2 == m)) with
        | some cs' => some (n.setChildren cs', .ok ())
        | none => none := by
  cases n with
  | mk t mp d cs =>
    simp only [Node.clear, hcont, if_true, child_info_of_contains hcont]
    simp [descentOctant]

lemma setChildren_self (n : Node T) : n.setChildren n.children = n := by
  cases n; rfl

lemma setTy_self (n : Node T) : n.setTy n.ty = n := by
  cases n; rfl

lemma set_none_getD {α : Type} (cs : List (Option α)) (i : Nat) :
    (cs.set i none).getD i none = none := by
  by_cases hi : i < cs.length
  · exact getD_set_self cs i none hi
  · have hlen : (cs.set i none).length = cs.length := by simp
    have : (cs.set i none)[i]? = none := by
      rw [List.getElem?_eq_none]
      omega
    simp [List.getD_eq_getElem?_getD, this]

lemma wipeChildren_length (cs : List (Option (Node T))) :
    (wipeChildren cs).length = cs.length := by
  unfold wipeChildren
  generalize List.range 8 = is
  induction is generalizing cs with
  | nil => rfl
  | cons i rest ih => simp only [List.foldl_cons]; rw [ih]; simp

lemma foldl_set_none_getD {α : Type} :
    ∀ (is : List Nat) (cs : List (Option α)) (i : Nat),
      i ∈ is ∨ cs.getD i none = none →
      (is.foldl (fun l j => l.set j none) cs).getD i none = none := by
  intro is
  induction is with
  | nil =>
    intro cs i h
    rcases h with h | h
    · simp at h
    · simpa using h
  | cons j rest ih =>
    intro cs i h
    simp only [List.foldl_cons]
    by_cases hij : i = j
    · subst hij
      exact ih _ i (Or.inr (set_none_getD cs i))
    · rcases h with h | h
      · rcases List.mem_cons.mp h with h | h
        · exact absurd h hij
        · exact ih _ i (Or.inl h)
      · refine ih _ i (Or.inr ?_)
        rw [getD_set_ne _ _ _ _ (fun hji => hij hji.symm)]
        exact h

/-- After the wipe, every slot of a length-8 child list is empty. -/
lemma wipeChildren_getD (cs : List (Option (Node T))) (hlen : cs.length = 8)
    (i : Nat) : (wipeChildren cs).getD i none = none := by
  by_cases hi : i < 8
  · refine foldl_set_none_getD _ cs i (Or.inl ?_)
    simpa using hi
  · have h1 : (wipeChildren cs).length = 8 := by rw [wipeChildren_length, hlen]
    have : (wipeChildren cs)[i]? = none := by
      rw [List.getElem?_eq_none]
      omega
    simp [List.getD_eq_getElem?_getD, this]

/-- The descent condition under which Node.clear actually writes the
default value at p: every node along p's octant path is Internal and has a
present child at p's octant, down to the node whose child dimension equals
the target minimum dimension. -/
inductive ClearPath : Node T → Vec3 → Nat → Prop where
  | base {n : Node T} {p : Vec3} {m : Nat} :
      n.ty = .internal → n.dimension / 2 = m →
      (n.children.getD (descentOctant n p) none).isSome = true →
      ClearPath n p m
  | step {n : Node T} {p : Vec3} {m : Nat} {c : Node T} :
      n.ty = .internal → n.dimension / 2 ≠ m →
      n.children.getD (descentOctant n p) none = some c →
      ClearPath c p m →
      ClearPath n p m

lemma ClearPath.ty_internal {n : Node T} {p : Vec3} {m : Nat}
    (h : ClearPath n p m) : n.ty = .internal := by
  cases h with
  | base h1 _ _ => exact h1
  | step h1 _ _ _ => exact h1

lemma ClearPath.child_isSome {n : Node T} {p : Vec3} {m : Nat}
    (h : ClearPath n p m) :
    (n.children.getD (descentOctant n p) none).isSome = true := by
  cases h with
  | base _ _ h3 => exact h3
  | step _ _ h3 _ => rw [h3]; rfl

lemma one_le_exp_of_half {k : Nat} (h : 1 ≤ 2 ^ k / 2) : 1 ≤ k := by
  cases k with
  | zero => simp at h
  | succ k' => omega

/-- The present child at p's descent octant of a well-formed node
contains p. -/
lemma child_contains_of_wf {n : Node T} {p : Vec3} {c : Node T} {k : Nat}
    (hwf : n.wfB = true) (hdim : n.dimension = 2 ^ k)
    (hcont : n.contains p = true)
    (hc : n.children.getD (descentOctant n p) none = some c) :
    c.contains p = true := by
  obtain ⟨hcdim, hge1, hcmin, _⟩ := wf_child hwf hc
  have hk1 : 1 ≤ k := one_le_exp_of_half (hdim ▸ hge1)
  have hhalf : n.dimension / 2 = 2 ^ (k - 1) := by
    rw [hdim]; exact two_pow_half hk1
  have hreg0 : regionContains n.min_position (2 * 2 ^ (k - 1)) p := by
    have := (contains_iff n p).mp hcont
    rwa [hdim, two_pow_two_mul hk1] at this
  have hch := child_region_contains n.min_position (2 ^ (k - 1)) p hreg0
  rw [contains_iff, hcmin, hcdim]
  simpa [Node.child_min_position, descentOctant, hhalf] using hch

lemma is_leaf_false_of_internal {n : Node T} (h : n.ty = .internal) :
    n.is_leaf = false := by
  simp [Node.is_leaf, h]

lemma descentOctant_setChildren (n : Node T) (cs : List (Option (Node T))) (p : Vec3) :
    descentOctant (n.setChildren cs) p = descentOctant n p := by
  simp [descentOctant]

/-- Behaviour of Node.clear on a well-formed node of power-of-two
dimension at a contained point: the call always returns Ok, leaves the
node's own kind and bounds unchanged, and — when the ClearPath condition
holds — makes get(p) return the default value. -/
lemma clear_spec [Inhabited T] :
    ∀ (k : Nat) (n : Node T) (p : Vec3) (mm : Nat),
      n.wfB = true → n.dimension = 2 ^ k → n.contains p = true →
      ∃ n', n.clear p (2 ^ mm) = some (n', .ok ()) ∧
        n'.min_position = n.min_position ∧ n'.dimension = n.dimension ∧
        n'.ty = n.ty ∧
        (ClearPath n p (2 ^ mm) → n'.get p = some default) := by
  intro k
  induction k using Nat.strong_induction_on with
  | _ k ih =>
    intro n p mm hwf hdim hcont
    by_cases hA : (n.is_leaf && (n.dimension / 2 == 2 ^ mm)) = true
    · refine ⟨n.setChildren (wipeChildren n.children), ?_, by simp, by simp, by simp, ?_⟩
      · rw [clear_unfold hcont, if_pos hA]
      · intro hcp
        have h1 := is_leaf_false_of_internal hcp.ty_internal
        rw [Bool.and_eq_true] at hA
        rw [hA.1] at h1
        exact absurd h1 (by simp)
    · cases hgd : n.children.getD (descentOctant n p) none with
      | none =>
        refine ⟨n, ?_, rfl, rfl, rfl, ?_⟩
        · rw [clear_unfold hcont, if_neg hA, clearChild_eq, hgd]
          dsimp only
          rw [setChildren_self]
        · intro hcp
          have := hcp.child_isSome
          rw [hgd] at this
          simp at this
      | some c =>
        obtain ⟨hcdim, hge1, hcmin, hcwf⟩ := wf_child hwf hgd
        have hk1 : 1 ≤ k := one_le_exp_of_half (hdim ▸ hge1)
        have hhalf : n.dimension / 2 = 2 ^ (k - 1) := by
          rw [hdim]; exact two_pow_half hk1
        have hccont : c.contains p = true :=
          child_contains_of_wf hwf hdim hcont hgd
        obtain ⟨c', hclc, hcmin', hcdim', hcty', himp⟩ :=
          ih (k - 1) (by omega) c p mm hcwf (by rw [hcdim, hhalf]) hccont
        have hlen : n.children.length = 8 := wf_length hwf
        have holt : descentOctant n p < 8 := vector_diff_lt_8 _ _
        set tl := n.is_leaf || (n.dimension / 2 == 2 ^ mm) with htl
        set newChild := c'.setTy (if tl then .leaf default else .internal) with hnc
        refine ⟨n.setChildren (n.children.set (descentOctant n p) (some newChild)),
          ?_, by simp, by simp, by simp, ?_⟩
        · rw [clear_unfold hcont, if_neg hA, clearChild_eq, hgd]
          dsimp only
          rw [hclc]
        · intro hcp
          have htyn : n.ty = .internal := hcp.ty_internal
          have hleaff : n.is_leaf = false := is_leaf_false_of_internal htyn
          have hoct' : descentOctant
              (n.setChildren (n.children.set (descentOctant n p) (some newChild))) p =
              descentOctant n p := descentOctant_setChildren _ _ _
          have hgd' : (n.setChildren
              (n.children.set (descentOctant n p) (some newChild))).children.getD
              (descentOctant n p) none = some newChild := by
            simp only [Node.children_setChildren]
            exact getD_set_self _ _ _ (by omega)
          have hgetn' : (n.setChildren
              (n.children.set (descentOctant n p) (some newChild))).get p =
              newChild.get p := by
            apply get_internal_child (by simpa using htyn) (by simpa using hcont)
            simp only [Node.children_setChildren, Node.min_position_setChildren,
              Node.dimension_setChildren]
            exact getD_set_self _ _ _ (by omega)
          rw [hgetn']
          cases hcp with
          | base h1 h2 h3 =>
            have htl : tl = true := by
              rw [htl, h2]
              simp
            rw [hnc, htl]
            refine get_leaf_of_contains (by simp) ?_
            have : c'.contains p = c.contains p := contains_congr hcmin' hcdim' p
            simp only [contains_setTy]
            rw [this]
            exact hccont
          | @step _ _ _ c0 h1 h2 h3 hcp' =>
            have hc0 : c0 = c := by
              rw [hgd] at h3
              exact (Option.some.inj h3).symm
            subst hc0
            have htl : tl = false := by
              rw [htl, hleaff]
              simp only [Bool.false_or]
              simpa using h2
            have htyc' : c'.ty = .internal := by
              rw [hcty']
              exact hcp'.ty_internal
            have hnc' : newChild = c' := by
              rw [hnc, htl]
              simp only [if_false, Bool.false_eq_true]
              rw [← htyc', setTy_self]
            rw [hnc']
            exact himp hcp'

/-! ## Claims C3 and C4 -/

/-- The octree of dimension 1 produced by Octree::new. -/
def octreeOne : Octree Nat :=
  { auto_simplify := false
    dimension := 1
    curr_lod_level := 1
    max_lod_level := 0
    min_dimension := 1
    root := Node.new ⟨0, 0, 0⟩ 1 }

/-- octreeOne after insert([0,0,0], 5). -/
def octreeOneFull : Octree Nat :=
  { octreeOne with root := Node.mk (.leaf 5) ⟨0, 0, 0⟩ 1 (List.replicate 8 none) }

/-- C3 counterexample: on the dimension-1 octree, insert 5 at the only
point, then clear_at the same point: clear_at returns Ok but changes
nothing (neither branch of Node::clear fires: the node is a leaf whose
child dimension 0 differs from min_dimension 1, and no child exists), so
get still returns Some(5) rather than Some(default) = Some(0). -/
theorem claim_C3_counterexample :
    Octree.new Nat 1 = .ok octreeOne ∧
    octreeOne.insert 1 ⟨0, 0, 0⟩ 5 = some (octreeOneFull, .ok ()) ∧
    octreeOneFull.clear_at ⟨0, 0, 0⟩ = some (octreeOneFull, .ok ()) ∧
    octreeOneFull.get ⟨0, 0, 0⟩ = some 5 ∧
    (default : Nat) = 0 ∧ (5 : Nat) ≠ 0 := by
  refine ⟨?_, rfl, rfl, rfl, rfl, by decide⟩
  simp [Octree.new, Nat.log2, octreeOne, Node.new]

/-- C3 amended: clear(p, min_dimension) on a well-formed tree of
power-of-two dimension returns Ok at every contained point; get(p)
afterwards returns Some(default) provided the ClearPath condition holds —
the descent path for p passes through Internal nodes with a present child
at p's octant at every level down to the one whose child dimension equals
min_dimension.  When a leaf or a missing child interrupts that path (for
example after the tree was simplified into a leaf, or in a dimension-1
tree), the call still returns Ok but get(p) = Some(default) is no longer
guaranteed: the counterexample's dimension-1 tree keeps its prior value
(other interrupted shapes can end up with get(p) = None, since clear
retags a recursed-into child to Internal when its dimension exceeds
min_dimension). -/
theorem claim_C3_amended [Inhabited T] (k : Nat) (n : Node T) (p : Vec3) (mm : Nat)
    (hwf : n.wfB = true) (hdim : n.dimension = 2 ^ k) (hcont : n.contains p = true) :
    ∃ n', n.clear p (2 ^ mm) = some (n', .ok ()) ∧
      (ClearPath n p (2 ^ mm) → n'.get p = some default) := by
  obtain ⟨n', h1, _, _, _, h5⟩ := clear_spec k n p mm hwf hdim hcont
  exact ⟨n', h1, h5⟩

/-- A dimension-2 internal node with eight dimension-1 leaf children. -/
def denseTwo : Node Nat :=
  Node.mk .internal ⟨0, 0, 0⟩ 2
    [some (Node.mk (.leaf 7) (Octant.offset 0) 1 (List.replicate 8 none)),
     some (Node.mk (.leaf 7) (Octant.offset 1) 1 (List.replicate 8 none)),
     some (Node.mk (.leaf 7) (Octant.offset 2) 1 (List.replicate 8 none)),
     some (Node.mk (.leaf 7) (Octant.offset 3) 1 (List.replicate 8 none)),
     some (Node.mk (.leaf 7) (Octant.offset 4) 1 (List.replicate 8 none)),
     some (Node.mk (.leaf 7) (Octant.offset 5) 1 (List.replicate 8 none)),
     some (Node.mk (.leaf 7) (Octant.offset 6) 1 (List.replicate 8 none)),
     some (Node.mk (.leaf 7) (Octant.offset 7) 1 (List.replicate 8 none))]

theorem claim_C3_amended_witness :
    denseTwo.wfB = true ∧ denseTwo.dimension = 2 ^ 1 ∧
    denseTwo.contains ⟨1, 0, 1⟩ = true ∧
    ClearPath denseTwo ⟨1, 0, 1⟩ (2 ^ 0) ∧
    (∃ n', denseTwo.clear ⟨1, 0, 1⟩ (2 ^ 0) = some (n', .ok ()) ∧
      (ClearPath denseTwo ⟨1, 0, 1⟩ (2 ^ 0) → n'.get ⟨1, 0, 1⟩ = some default)) :=
  ⟨by decide, by decide, by decide,
    ClearPath.base (by decide) (by decide) (by decide),
    claim_C3_amended 1 denseTwo ⟨1, 0, 1⟩ 0 (by decide) (by decide) (by decide)⟩

/-- A dimension-2 leaf node holding 5, with no children. -/
def leafTwo : Node Nat := Node.mk (.leaf 5) ⟨0, 0, 0⟩ 2 (List.replicate 8 none)

/-- C4 counterexample: clear on a leaf node whose child dimension equals
the target minimum dimension does not materialize any children (the
returned node still has all eight slots empty — the loop sets them all to
None) and does not write the default into the target octant: the cleared
cell still reads the prior value 5. -/
theorem claim_C4_counterexample :
    leafTwo.ty = .leaf 5 ∧ leafTwo.dimension / 2 = 1 ∧
    leafTwo.contains ⟨0, 0, 0⟩ = true ∧
    leafTwo.clear ⟨0, 0, 0⟩ 1 = some (leafTwo, .ok ()) ∧
    leafTwo.children = List.replicate 8 none ∧
    leafTwo.get ⟨0, 0, 0⟩ = some 5 ∧ (default : Nat) ≠ 5 := by
  refine ⟨rfl, rfl, by decide, by decide, rfl, by decide, by decide⟩

/-- C4 amended: when clear reaches a node that is a Leaf and whose child
dimension equals the target minimum dimension, it sets all eight child
slots to None (materializing nothing) and leaves the node's kind and value
unchanged, so after the call every in-bounds point of that node's region —
the cleared cell included — still reads the prior leaf value. -/
theorem claim_C4_amended [Inhabited T] (n : Node T) (p : Vec3) (m : Nat) (v : T)
    (hty : n.ty = .leaf v) (hcont : n.contains p = true)
    (hdm : n.dimension / 2 = m) (hlen : n.children.length = 8) :
    n.clear p m = some (n.setChildren (wipeChildren n.children), .ok ()) ∧
    (∀ i, (n.setChildren (wipeChildren n.children)).children.getD i none = none) ∧
    (∀ q, n.contains q = true →
      (n.setChildren (wipeChildren n.children)).get q = some v) := by
  have hleaf : n.is_leaf = true := by simp [Node.is_leaf, hty]
  have hbeq : (n.dimension / 2 == m) = true := by simp [hdm]
  refine ⟨?_, ?_, ?_⟩
  · rw [clear_unfold hcont, if_pos (by rw [hleaf, hbeq]; rfl)]
  · intro i
    simp only [Node.children_setChildren]
    exact wipeChildren_getD _ hlen i
  · intro q hq
    refine get_leaf_of_contains (by simp [hty]) ?_
    simpa using hq

theorem claim_C4_amended_witness :
    leafTwo.ty = .leaf 5 ∧ leafTwo.contains ⟨1, 1, 0⟩ = true ∧
    leafTwo.dimension / 2 = 1 ∧ leafTwo.children.length = 8 ∧
    (leafTwo.clear ⟨1, 1, 0⟩ 1 =
        some (leafTwo.setChildren (wipeChildren leafTwo.children), .ok ()) ∧
      (∀ i, (leafTwo.setChildren (wipeChildren leafTwo.children)).children.getD i none =
        none) ∧
      (∀ q, leafTwo.contains q = true →
        (leafTwo.setChildren (wipeChildren leafTwo.children)).get q = some 5)) :=
  ⟨rfl, by decide, rfl, rfl,
    claim_C4_amended leafTwo ⟨1, 1, 0⟩ 1 5 rfl (by decide) rfl rfl⟩

/-! ## Claim C6 -/

lemma getD_mem {α : Type} {l : List (Option α)} {i : Nat} (h : i < l.length) :
    l.getD i none ∈ l := by
  rw [List.getD_eq_getElem?_getD, List.getElem?_eq_getElem h]
  exact List.getElem_mem h

lemma collectUniform_none_imp_nil [DecidableEq T]
    {l : List (Option (Node T))} (h : collectUniform l none = some none) :
    l = [] := by
  cases l with
  | nil => rfl
  | cons a rest =>
    cases a with
    | none => simp [collectUniform] at h
    | some c =>
      cases hty : c.ty with
      | internal => simp [collectUniform, hty] at h
      | leaf d =>
        simp only [collectUniform, hty] at h
        obtain ⟨hr, _⟩ := collectUniform_some_acc rest d none h
        exact absurd hr.symm (by simp)

/-- C6: simplify() returns true, collapses the node to Leaf(v) and drops
all 8 children exactly when all 8 slots hold Leaf children carrying one
common value v; in every other case it returns false and leaves the node
(kind, value, children) unchanged.  The hypothesis records the Rust array
type: a Node always has exactly 8 child slots. -/
theorem claim_C6_simplify [DecidableEq T] (n : Node T)
    (hlen : n.children.length = 8) :
    (∃ v, (∀ i, i < 8 → ∃ c, n.children.getD i none = some c ∧ c.ty = .leaf v) ∧
      n.simplify =
        (true, Node.mk (.leaf v) n.min_position n.dimension (List.replicate 8 none))) ∨
    ((¬ ∃ v, ∀ i, i < 8 → ∃ c, n.children.getD i none = some c ∧ c.ty = .leaf v) ∧
      n.simplify = (false, n)) := by
  cases hres : collectUniform n.children none with
  | some r =>
    cases r with
    | some d =>
      left
      refine ⟨d, ?_, ?_⟩
      · intro i hi
        have hmem : n.children.getD i none ∈ n.children := getD_mem (by omega)
        obtain ⟨c, hc, hty⟩ := collectUniform_none_some n.children d hres _ hmem
        exact ⟨c, hc, hty⟩
      · unfold Node.simplify
        rw [hres]
    | none =>
      exact absurd (collectUniform_none_imp_nil hres) (by
        intro h
        rw [h] at hlen
        simp at hlen)
  | none =>
    right
    constructor
    · rintro ⟨v, hv⟩
      have hall : ∀ x ∈ n.children, ∃ c, x = some c ∧ c.ty = .leaf v := by
        intro x hx
        obtain ⟨i, hi, hxi⟩ := List.mem_iff_getElem.mp hx
        have : n.children.getD i none = x := by
          rw [List.getD_eq_getElem?_getD, List.getElem?_eq_getElem hi, hxi]
          rfl
        obtain ⟨c, hc, hty⟩ := hv i (by omega)
        exact ⟨c, by rw [← this, hc], hty⟩
      have := collectUniform_complete (by
        intro h
        rw [h] at hlen
        simp at hlen) hall
      rw [hres] at this
      exact absurd this (by simp)
    · unfold Node.simplify
      rw [hres]

/-- A dimension-2 internal node whose 8 children are dimension-1 leaves
holding 9. -/
def denseNine : Node Nat :=
  Node.mk .internal ⟨0, 0, 0⟩ 2
    (List.replicate 8 (some (Node.mk (.leaf 9) ⟨0, 0, 0⟩ 1 (List.replicate 8 none))))

theorem claim_C6_witness :
    denseNine.children.length = 8 ∧
    ((∃ v, (∀ i, i < 8 → ∃ c, denseNine.children.getD i none = some c ∧
        c.ty = .leaf v) ∧
      denseNine.simplify =
        (true,
          Node.mk (.leaf v) denseNine.min_position denseNine.dimension
            (List.replicate 8 none))) ∨
    ((¬ ∃ v, ∀ i, i < 8 → ∃ c, denseNine.children.getD i none = some c ∧
        c.ty = .leaf v) ∧
      denseNine.simplify = (false, denseNine))) :=
  ⟨rfl, claim_C6_simplify denseNine rfl⟩

/-! ## Claim C7 -/

lemma tally_spec [DecidableEq T] :
    ∀ (l : List T),
      (∀ e ∈ tally l, e.2 = l.count e.1 ∧ e.1 ∈ l) ∧
      (∀ t ∈ l, ∃ cnt, (t, cnt) ∈ tally l) := by
  intro l
  induction l using List.reverseRecOn with
  | nil => simp [tally]
  | append_singleton l v ih =>
    obtain ⟨ihc, ihcov⟩ := ih
    have hstep : tally (l ++ [v]) =
        (if (tally l).any (fun e => e.1 = v) then
          (tally l).map (fun e => if e.1 = v then (e.1, e.2 + 1) else e)
        else tally l ++ [(v, 1)]) := by
      unfold tally
      rw [List.foldl_append]
      rfl
    by_cases hany : (tally l).any (fun e => decide (e.1 = v)) = true
    · rw [List.any_eq_true] at hany
      obtain ⟨ev, hev, hevv⟩ := hany
      have hevv : ev.1 = v := by simpa using hevv
      rw [hstep, if_pos (by rw [List.any_eq_true]; exact ⟨ev, hev, by simpa using hevv⟩)]
      constructor
      · intro e' he'
        obtain ⟨e, he, hee⟩ := List.mem_map.mp he'
        obtain ⟨hc, hm⟩ := ihc e he
        by_cases hkey : e.1 = v
        · rw [if_pos hkey] at hee
          subst hee
          refine ⟨?_, by simp [hm]⟩
          simp only [List.count_append, hkey]
          simp [hc, hkey]
        · rw [if_neg hkey] at hee
          subst hee
          refine ⟨?_, by simp [hm]⟩
          rw [List.count_append, hc]
          have : [v].count e.1 = 0 := by
            simp [List.count_singleton]
            exact fun h => hkey h.symm
          omega
      · intro t ht
        rcases List.mem_append.mp ht with ht | ht
        · obtain ⟨cnt, hcnt⟩ := ihcov t ht
          by_cases hkey : t = v
          · exact ⟨cnt + 1, List.mem_map.mpr ⟨(t, cnt), hcnt, by simp [hkey]⟩⟩
          · exact ⟨cnt, List.mem_map.mpr ⟨(t, cnt), hcnt, by simp [hkey]⟩⟩
        · have ht : t = v := by simpa using ht
          subst ht
          exact ⟨ev.2 + 1,
            List.mem_map.mpr ⟨ev, hev, by simp [hevv]⟩⟩
    · have hnot : ∀ e ∈ tally l, e.1 ≠ v := by
        intro e he hkey
        exact hany (List.any_eq_true.mpr ⟨e, he, by simpa using hkey⟩)
      have hvnot : v ∉ l := by
        intro hv
        obtain ⟨cnt, hcnt⟩ := ihcov v hv
        exact hnot _ hcnt rfl
      rw [hstep, if_neg (by
        intro h
        rw [List.any_eq_true] at h
        obtain ⟨e, he, hev⟩ := h
        exact hnot e he (by simpa using hev))]
      constructor
      · intro e' he'
        rcases List.mem_append.mp he' with he' | he'
        · obtain ⟨hc, hm⟩ := ihc e' he'
          refine ⟨?_, by simp [hm]⟩
          rw [List.count_append, hc]
          have : [v].count e'.1 = 0 := by
            simp [List.count_singleton]
            exact fun h => hnot e' he' h.symm
          omega
        · have he' : e' = (v, 1) := by simpa using he'
          subst he'
          refine ⟨?_, by simp⟩
          simp only [List.count_append]
          rw [List.count_eq_zero.mpr hvnot]
          simp
      · intro t ht
        rcases List.mem_append.mp ht with ht | ht
        · obtain ⟨cnt, hcnt⟩ := ihcov t ht
          exact ⟨cnt, List.mem_append.mpr (Or.inl hcnt)⟩
        · have ht : t = v := by simpa using ht
          subst ht
          exact ⟨1, List.mem_append.mpr (Or.inr (by simp))⟩

lemma fold_max_some {T : Type} :
    ∀ (l : List (T × Nat)) (b : T × Nat),
      ∃ e, l.foldl maxStep (some b) = some e ∧
        (e ∈ l ∨ e = b) ∧ b.2 ≤ e.2 ∧ ∀ e' ∈ l, e'.2 ≤ e.2 := by
  intro l
  induction l with
  | nil => exact fun b => ⟨b, rfl, Or.inr rfl, le_refl _, by simp⟩
  | cons a rest ih =>
    intro b
    simp only [List.foldl_cons, maxStep]
    by_cases hba : b.2 ≤ a.2
    · rw [if_pos hba]
      obtain ⟨e, h1, h2, h3, h4⟩ := ih a
      refine ⟨e, h1, ?_, by omega, ?_⟩
      · rcases h2 with h | h
        · exact Or.inl (List.mem_cons_of_mem _ h)
        · exact Or.inl (by simp [h])
      · intro e' he'
        rcases List.mem_cons.mp he' with he' | he'
        · subst he'; omega
        · exact h4 e' he'
    · rw [if_neg hba]
      obtain ⟨e, h1, h2, h3, h4⟩ := ih b
      refine ⟨e, h1, ?_, h3, ?_⟩
      · rcases h2 with h | h
        · exact Or.inl (List.mem_cons_of_mem _ h)
        · exact Or.inr h
      · intro e' he'
        rcases List.mem_cons.mp he' with he' | he'
        · subst he'; omega
        · exact h4 e' he'

lemma maxByCount_spec {T : Type} (l : List (T × Nat)) (hne : l ≠ []) :
    ∃ e, maxByCount l = some e.1 ∧ e ∈ l ∧ ∀ e' ∈ l, e'.2 ≤ e.2 := by
  cases l with
  | nil => exact absurd rfl hne
  | cons a rest =>
    obtain ⟨e, h1, h2, h3, h4⟩ := fold_max_some rest a
    refine ⟨e, ?_, ?_, ?_⟩
    · unfold maxByCount
      rw [List.foldl_cons]
      rw [show maxStep none a = some a from rfl, h1]
      rfl
    · rcases h2 with h | h
      · exact List.mem_cons_of_mem _ h
      · simp [h]
    · intro e' he'
      rcases List.mem_cons.mp he' with he' | he'
      · subst he'; omega
      · exact h4 e' he'

lemma lodChildren_dense [DecidableEq T] :
    ∀ (cs : List (Option (Node T))), (∀ x ∈ cs, x.isSome = true) →
      (lodChildren cs).2.2 = true ∧
      (lodChildren cs).2.1 = cs.filterMap (fun c? => c?.bind Node.leaf_data) := by
  intro cs
  induction cs with
  | nil => intro h; simp [lodChildren]
  | cons a rest ih =>
    intro h
    cases a with
    | none => exact absurd (h none (by simp)) (by simp)
    | some c =>
      obtain ⟨ih1, ih2⟩ := ih (fun x hx => h x (List.mem_cons_of_mem _ hx))
      cases hty : c.ty with
      | leaf dt =>
        simp only [lodChildren, hty]
        cases hlr : lodChildren rest with
        | mk cs' r =>
          cases r with
          | mk ds ok =>
            rw [hlr] at ih1 ih2
            simp only at ih1 ih2
            refine ⟨by simpa using ih1, ?_⟩
            simp only [List.filterMap_cons, Option.bind_eq_bind, Option.some_bind,
              Node.leaf_data, hty]
            simpa using ih2
      | internal =>
        simp only [lodChildren, hty]
        cases hlr : lodChildren rest with
        | mk cs' r =>
          cases r with
          | mk ds ok =>
            rw [hlr] at ih1 ih2
            simp only at ih1 ih2
            refine ⟨by simpa using ih1, ?_⟩
            simp only [List.filterMap_cons, Option.bind_eq_bind, Option.some_bind,
              Node.leaf_data, hty]
            simpa using ih2

lemma lodChildren_abort [DecidableEq T] :
    ∀ (cs : List (Option (Node T))), (¬ ∀ x ∈ cs, x.isSome = true) →
      (lodChildren cs).2.2 = false := by
  intro cs
  induction cs with
  | nil => intro h; exact absurd (by simp) h
  | cons a rest ih =>
    intro h
    cases a with
    | none => simp [lodChildren]
    | some c =>
      have : ¬ ∀ x ∈ rest, x.isSome = true := by
        intro hall
        exact h (by
          intro x hx
          rcases List.mem_cons.mp hx with hx | hx
          · subst hx; rfl
          · exact hall x hx)
      have ih' := ih this
      cases hty : c.ty with
      | leaf dt =>
        simp only [lodChildren, hty]
        cases hlr : lodChildren rest with
        | mk cs' r =>
          cases r with
          | mk ds ok =>
            rw [hlr] at ih'
            simpa using ih'
      | internal =>
        simp only [lodChildren, hty]
        cases hlr : lodChildren rest with
        | mk cs' r =>
          cases r with
          | mk ds ok =>
            rw [hlr] at ih'
            simpa using ih'

lemma lod_eq [DecidableEq T] (n : Node T) :
    n.lod =
      match lodChildren n.children with
      | (cs', all_data, true) =>
        Node.mk
          (if (tally all_data).isEmpty then n.ty
           else
             match maxByCount (tally all_data) with
             | some v => NodeTy.leaf v
             | none => n.ty)
          n.min_position n.dimension (cs'.map (fun _ => none))
      | (cs', _, false) => Node.mk n.ty n.min_position n.dimension cs' := by
  cases n with
  | mk t mp d cs =>
    simp only [Node.lod, Node.children_mk, Node.ty_mk, Node.min_position_mk,
      Node.dimension_mk]

lemma map_none_getD {α β : Type} :
    ∀ (l : List α) (i : Nat),
      (l.map (fun _ => (none : Option β))).getD i none = none := by
  intro l
  induction l with
  | nil => intro i; simp
  | cons a rest ih =>
    intro i
    cases i with
    | zero => simp
    | succ j => simpa using ih j

lemma tally_ne_nil [DecidableEq T] {l : List T} (h : l ≠ []) : tally l ≠ [] := by
  cases l with
  | nil => exact absurd rfl h
  | cons a rest =>
    obtain ⟨cnt, hcnt⟩ := (tally_spec (a :: rest)).2 a (by simp)
    intro hempty
    rw [hempty] at hcnt
    simp at hcnt

/-- The dimension-1 leaf child used in the C7 counterexample. -/
def cexLeaf (v : Nat) : Option (Node Nat) :=
  some (Node.mk (.leaf v) ⟨0, 0, 0⟩ 2 (List.replicate 8 none))

/-- A dense internal child all of whose 8 grandchildren are leaves
holding 2; its lod() collapses it to Leaf(2). -/
def cexDense : Option (Node Nat) :=
  some (Node.mk .internal ⟨0, 0, 0⟩ 2
    (List.replicate 8 (some (Node.mk (.leaf 2) ⟨0, 0, 0⟩ 1 (List.replicate 8 none)))))

/-- The C7 counterexample node: three internal children that collapse to
Leaf(2), three leaves holding 1, two leaves holding 2. -/
def cexLod : Node Nat :=
  Node.mk .internal ⟨0, 0, 0⟩ 4
    [cexDense, cexDense, cexDense, cexLeaf 1, cexLeaf 1, cexLeaf 1, cexLeaf 2, cexLeaf 2]

/-- The C7 counterexample for the absent-slot part: the first child is a
dense internal node, the second slot is empty. -/
def cexLodPartial : Node Nat :=
  Node.mk .internal ⟨0, 0, 0⟩ 4
    [cexDense, none, none, none, none, none, none, none]

/-- C7 counterexample.  First part: on cexLod (all 8 children present),
the leaf values of all 8 children after every Internal child is forced
into a Leaf by lod() are [2, 2, 2, 1, 1, 1, 2, 2] — the value with the
highest occurrence count among them is 2 (count 5 against 3) — yet the
code sets the node to Leaf(1), because the values of children that were
Internal at call time are never tallied.  Second part: on cexLodPartial
(second slot absent) the call is claimed to leave the node's children
unchanged, but the internal child in slot 0 has been collapsed to a leaf
in place. -/
theorem claim_C7_counterexample :
    (cexLod.children.map
        (fun c? =>
          match c? with
          | some c => if c.is_leaf then c.leaf_data else (c.lod).leaf_data
          | none => none) =
      [some 2, some 2, some 2, some 1, some 1, some 1, some 2, some 2]) ∧
    (cexLod.lod).ty = NodeTy.leaf 1 ∧
    NodeTy.leaf (1 : Nat) ≠ NodeTy.leaf 2 ∧
    (cexLodPartial.lod).ty = cexLodPartial.ty ∧
    (cexLodPartial.lod).children.getD 0 none ≠ cexLodPartial.children.getD 0 none ∧
    (cexLodPartial.lod).children.getD 0 none =
      some (Node.mk (.leaf 2) ⟨0, 0, 0⟩ 2 (List.replicate 8 none)) := by
  refine ⟨rfl, rfl, by decide, rfl, by decide, rfl⟩

/-- C7 amended: for a node whose 8 child slots are all occupied, lod()
recursively collapses every currently-Internal child, tallies only the
values of the children that were already leaves at call time (the
collapsed internal children's values are not counted), sets the node to
Leaf(v) for a value v of maximal occurrence count among those tallied
values (leaving the kind unchanged when no child was a leaf), and empties
all child slots; if some child slot is absent, the node's kind, value and
bounds are unchanged and the children become the partially processed
list — internal children visited before the absent slot have still been
collapsed in place, as the counterexample shows. -/
theorem claim_C7_amended [DecidableEq T] (n : Node T) :
    ((∀ x ∈ n.children, x.isSome = true) →
      (n.lod).min_position = n.min_position ∧ (n.lod).dimension = n.dimension ∧
      (∀ i, (n.lod).children.getD i none = none) ∧
      ((n.children.filterMap (fun c? => c?.bind Node.leaf_data)) = [] →
        (n.lod).ty = n.ty) ∧
      ((n.children.filterMap (fun c? => c?.bind Node.leaf_data)) ≠ [] →
        ∃ v, (n.lod).ty = .leaf v ∧
          ∀ t, (n.children.filterMap (fun c? => c?.bind Node.leaf_data)).count t ≤
            (n.children.filterMap (fun c? => c?.bind Node.leaf_data)).count v)) ∧
    ((¬ ∀ x ∈ n.children, x.isSome = true) →
      (n.lod).ty = n.ty ∧ (n.lod).min_position = n.min_position ∧
      (n.lod).dimension = n.dimension ∧
      (n.lod).children = (lodChildren n.children).1) := by
  constructor
  · intro hdense
    obtain ⟨hok, hds⟩ := lodChildren_dense n.children hdense
    rw [lod_eq n]
    cases hlr : lodChildren n.children with
    | mk cs' r =>
      cases r with
      | mk ds ok =>
        rw [hlr] at hok hds
        simp only at hok hds
        subst hok
        subst hds
        refine ⟨by simp, by simp, ?_, ?_, ?_⟩
        · intro i
          simpa using map_none_getD cs' i
        · intro hnil
          rw [hnil]
          simp [tally]
        · intro hnonnil
          have htne := tally_ne_nil hnonnil
          obtain ⟨e, hmax, hmem, hbound⟩ := maxByCount_spec _ htne
          refine ⟨e.1, ?_, ?_⟩
          · simp only [Node.ty_mk]
            rw [if_neg (by simpa [List.isEmpty_iff] using htne), hmax]
          · intro t
            obtain ⟨hce, _⟩ := (tally_spec _).1 e hmem
            by_cases htmem : t ∈ n.children.filterMap (fun c? => c?.bind Node.leaf_data)
            · obtain ⟨cnt, hcnt⟩ := (tally_spec _).2 t htmem
              obtain ⟨hct, _⟩ := (tally_spec _).1 (t, cnt) hcnt
              have := hbound (t, cnt) hcnt
              simp only at hct this
              omega
            · rw [List.count_eq_zero.mpr htmem]
              omega
  · intro hpart
    have hok := lodChildren_abort n.children hpart
    rw [lod_eq n]
    cases hlr : lodChildren n.children with
    | mk cs' r =>
      cases r with
      | mk ds ok =>
        rw [hlr] at hok
        simp only at hok
        subst hok
        exact ⟨by simp, by simp, by simp, by simp⟩

theorem claim_C7_amended_witness :
    (∀ x ∈ cexLod.children, x.isSome = true) ∧
    ((cexLod.children.filterMap (fun c? => c?.bind Node.leaf_data)) = [1, 1, 1, 2, 2]) ∧
    ((∀ x ∈ cexLod.children, x.isSome = true) →
      (cexLod.lod).min_position = cexLod.min_position ∧
      (cexLod.lod).dimension = cexLod.dimension ∧
      (∀ i, (cexLod.lod).children.getD i none = none) ∧
      ((cexLod.children.filterMap (fun c? => c?.bind Node.leaf_data)) = [] →
        (cexLod.lod).ty = cexLod.ty) ∧
      ((cexLod.children.filterMap (fun c? => c?.bind Node.leaf_data)) ≠ [] →
        ∃ v, (cexLod.lod).ty = .leaf v ∧
          ∀ t, (cexLod.children.filterMap (fun c? => c?.bind Node.leaf_data)).count t ≤
            (cexLod.children.filterMap (fun c? => c?.bind Node.leaf_data)).count v)) :=
  ⟨by decide, rfl, (claim_C7_amended cexLod).1⟩

/-! ## Claim C10 -/

/-- C10: a tree built with domain dimension 1 has max_lod_level 0 and
curr_lod_level 1; lod_down then selects level = max_lod_level = 0 (since
curr + 1 = 2 is not below max = 0) and evaluates 2^(level - 1) on the
unsigned level, so the checked u32 subtraction level - 1 underflows: the
operation is not total at this input (none models the panic); the LOD
bookkeeping is never updated and root.lod() is never reached. -/
theorem claim_C10_lod_down_underflow :
    Octree.new Nat 1 = .ok octreeOne ∧
    octreeOne.curr_lod_level = 1 ∧
    octreeOne.max_lod_level = 0 ∧
    (if octreeOne.max_lod_level ≤ octreeOne.curr_lod_level + 1 then
      octreeOne.max_lod_level
     else octreeOne.curr_lod_level + 1) = 0 ∧
    checkedSub 0 1 = none ∧
    octreeOne.lod_down = none := by
  refine ⟨?_, rfl, rfl, rfl, rfl, rfl⟩
  simp [Octree.new, Nat.log2, octreeOne, Node.new]

/-! ## Claim C2 -/

lemma getD_set_self' {α : Type} (l : List α) (i : Nat) (x d : α)
    (hi : i < l.length) : (l.set i x).getD i d = x := by
  induction l generalizing i with
  | nil => simp at hi
  | cons a rest ih =>
    cases i with
    | zero => simp
    | succ j =>
      have hs : (a :: rest).set (j + 1) x = a :: rest.set j x := rfl
      rw [hs, List.getD_cons_succ]
      exact ih j (by simpa using hi)

lemma getD_set_ne' {α : Type} (l : List α) (i j : Nat) (x d : α)
    (hij : i ≠ j) : (l.set i x).getD j d = l.getD j d := by
  induction l generalizing i j with
  | nil => simp
  | cons a rest ih =>
    cases i with
    | zero =>
      cases j with
      | zero => exact absurd rfl hij
      | succ j' => simp
    | succ i' =>
      cases j with
      | zero => simp
      | succ j' =>
        have hs : (a :: rest).set (i' + 1) x = a :: rest.set i' x := rfl
        rw [hs, List.getD_cons_succ, List.getD_cons_succ]
        exact ih i' j' (by omega)

lemma head?_set_of_pos {α : Type} (l : List α) (i : Nat) (x : α) (hi : 1 ≤ i) :
    (l.set i x).head? = l.head? := by
  cases l with
  | nil => simp
  | cons a rest =>
    cases i with
    | zero => omega
    | succ j => simp

lemma head?_set_zero {α : Type} (l : List α) (x : α) (hl : l ≠ []) :
    (l.set 0 x).head? = some x := by
  cases l with
  | nil => exact absurd rfl hl
  | cons a rest => simp

lemma serStep_eq_none {T : Type} {cur : Node T} {i : Nat}
    (idx : List Nat) (an : List (Node T × List Nat)) (q : List Nat)
    (h : cur.children.getD i none = none) :
    serStep cur (idx, an, q) i = (idx, an, q) := by
  unfold serStep
  rw [h]

lemma serStep_eq_some {T : Type} {cur : Node T} {i : Nat} {c : Node T}
    (idx : List Nat) (an : List (Node T × List Nat)) (q : List Nat)
    (h : cur.children.getD i none = some c) :
    serStep cur (idx, an, q) i =
      (idx.set i an.length, an ++ [(c, List.replicate 8 0)], q ++ [an.length]) := by
  unfold serStep
  rw [h]

/-- The per-iteration child loop of serialize appends to all_nodes and the
queue, and every queued index is at least the length all_nodes had before
the loop. -/
lemma serFold_append {T : Type} (cur : Node T) :
    ∀ (is : List Nat) (st : List Nat × List (Node T × List Nat) × List Nat),
      ∃ es qs,
        (is.foldl (serStep cur) st).2.1 = st.2.1 ++ es ∧
        (is.foldl (serStep cur) st).2.2 = st.2.2 ++ qs ∧
        ∀ j ∈ qs, st.2.1.length ≤ j := by
  intro is
  induction is with
  | nil => exact fun st => ⟨[], [], by simp, by simp, by simp⟩
  | cons i rest ih =>
    intro st
    obtain ⟨idx, an, q⟩ := st
    simp only [List.foldl_cons]
    cases hci : cur.children.getD i none with
    | none =>
      rw [serStep_eq_none idx an q hci]
      exact ih (idx, an, q)
    | some c =>
      rw [serStep_eq_some idx an q hci]
      obtain ⟨es, qs, h1, h2, h3⟩ :=
        ih (idx.set i an.length, an ++ [(c, List.replicate 8 0)], q ++ [an.length])
      refine ⟨(c, List.replicate 8 0) :: es, an.length :: qs, ?_, ?_, ?_⟩
      · simpa using h1
      · simpa using h2
      · intro j hj
        rcases List.mem_cons.mp hj with hj | hj
        · omega
        · have hj3 := h3 j hj
          simp only [List.length_append, List.length_cons] at hj3
          omega

/-- The child loop of serialize leaves the helper index of an absent child
slot unchanged. -/
lemma serFold_idx {T : Type} (cur : Node T) :
    ∀ (is : List Nat) (st : List Nat × List (Node T × List Nat) × List Nat) (j : Nat),
      cur.children.getD j none = none →
      ((is.foldl (serStep cur) st).1).getD j 0 = (st.1).getD j 0 := by
  intro is
  induction is with
  | nil => intro st j _; rfl
  | cons i rest ih =>
    intro st j hj
    obtain ⟨idx, an, q⟩ := st
    simp only [List.foldl_cons]
    cases hci : cur.children.getD i none with
    | none =>
      rw [serStep_eq_none idx an q hci]
      exact ih (idx, an, q) j hj
    | some c =>
      rw [serStep_eq_some idx an q hci]
      rw [ih _ j hj]
      have hij : i ≠ j := by
        intro h
        rw [h, hj] at hci
        exact absurd hci (by simp)
      exact getD_set_ne' idx i j an.length 0 hij

/-- Once every queued index is nonzero, the serialize loop no longer
touches the first record of all_nodes. -/
lemma serLoop_head {T : Type} :
    ∀ (fuel : Nat) (an : List (Node T × List Nat)) (q : List Nat)
      (out : List (Node T × List Nat)),
      (∀ j ∈ q, 1 ≤ j) → an ≠ [] → serLoop fuel an q = some out →
      out.head? = an.head? ∧ out ≠ [] := by
  intro fuel
  induction fuel with
  | zero =>
    intro an q out hq han h
    cases q with
    | nil =>
      simp only [serLoop, Option.some.injEq] at h
      subst h
      exact ⟨rfl, han⟩
    | cons i rest => simp [serLoop] at h
  | succ fl ih =>
    intro an q out hq han h
    cases q with
    | nil =>
      simp only [serLoop, Option.some.injEq] at h
      subst h
      exact ⟨rfl, han⟩
    | cons i rest =>
      simp only [serLoop] at h
      set dflt : Node T × List Nat := (Node.mk .internal ⟨0, 0, 0⟩ 0 [], []) with hdflt
      cases hget : an.getD i dflt with
      | mk cur idx =>
        rw [hget] at h
        by_cases hilen : i < an.length
        · rw [if_pos hilen] at h
          cases hsc : serChildren cur (idx, an, rest) with
          | mk idx' r =>
            cases r with
            | mk an' q' =>
              rw [hsc] at h
              simp only at h
              have hsc' : (List.range 8).foldl (serStep cur) (idx, an, rest) =
                  (idx', an', q') := hsc
              obtain ⟨es, qs, he1, he2, he3⟩ := serFold_append cur (List.range 8)
                (idx, an, rest)
              rw [hsc'] at he1 he2
              simp only at he1 he2
              have hq' : ∀ j ∈ q', 1 ≤ j := by
                intro j hj
                rw [he2] at hj
                rcases List.mem_append.mp hj with hj | hj
                · exact hq j (List.mem_cons_of_mem _ hj)
                · have hj3 : an.length ≤ j := he3 j hj
                  have hlen1 : 1 ≤ an.length := by
                    cases an with
                    | nil => exact absurd rfl han
                    | cons a r => simp
                  omega
              have hi1 : 1 ≤ i := hq i (by simp)
              have hne : an'.set i (cur, idx') ≠ [] := by
                intro hnil
                have : (an'.set i (cur, idx')).length = 0 := by rw [hnil]; rfl
                rw [List.length_set, he1] at this
                cases an with
                | nil => exact absurd rfl han
                | cons a r => simp at this
              obtain ⟨hh, hne'⟩ := ih _ _ _ hq' hne h
              refine ⟨?_, hne'⟩
              rw [hh, head?_set_of_pos _ _ _ hi1, he1]
              cases an with
              | nil => exact absurd rfl han
              | cons a r => simp
        · rw [if_neg hilen] at h
          exact absurd h (by simp)

lemma getD_replicate_self {α : Type} :
    ∀ (k i : Nat) (d : α), (List.replicate k d).getD i d = d := by
  intro k
  induction k with
  | zero => intro i d; simp
  | succ k' ih =>
    intro i d
    cases i with
    | zero => simp
    | succ j => simpa [List.replicate_succ] using ih j d

/-- The first record of a successful serialize run is the root paired with
an index array whose entries at absent child slots are 0. -/
lemma serialize_head {T : Type} (fuel : Nat) (n : Node T)
    (out : List (Node T × List Nat)) (h : Node.serialize fuel n = some out) :
    ∃ idx0, out.head? = some (n, idx0) ∧
      ∀ j, n.children.getD j none = none → idx0.getD j 0 = 0 := by
  unfold Node.serialize at h
  cases fuel with
  | zero => simp [serLoop] at h
  | succ fl =>
    simp only [serLoop] at h
    rw [show ([(n, List.replicate (n := 8) (0 : Nat))]).getD 0
        (Node.mk .internal ⟨0, 0, 0⟩ 0 [], []) = (n, List.replicate 8 0) from rfl] at h
    rw [if_pos (by simp)] at h
    cases hsc : serChildren n (List.replicate 8 0, [(n, List.replicate 8 0)], []) with
    | mk idx' r =>
      cases r with
      | mk an' q' =>
        rw [hsc] at h
        simp only at h
        have hsc' : (List.range 8).foldl (serStep n)
            (List.replicate 8 0, [(n, List.replicate 8 0)], []) = (idx', an', q') := hsc
        obtain ⟨es, qs, he1, he2, he3⟩ :=
          serFold_append n (List.range 8) (List.replicate 8 0, [(n, List.replicate 8 0)], [])
        rw [hsc'] at he1 he2
        simp only at he1 he2
        have hidx : ∀ j, n.children.getD j none = none → idx'.getD j 0 = 0 := by
          intro j hj
          have := serFold_idx n (List.range 8)
            (List.replicate 8 0, [(n, List.replicate 8 0)], []) j hj
          rw [hsc'] at this
          simp only at this
          rw [this]
          exact getD_replicate_self 8 j 0
        have hq' : ∀ j ∈ q', 1 ≤ j := by
          intro j hj
          rw [he2] at hj
          simp only [List.nil_append] at hj
          have := he3 j hj
          simpa using this
        have hne : an'.set 0 (n, idx') ≠ [] := by
          intro hnil
          have : (an'.set 0 (n, idx')).length = 0 := by rw [hnil]; rfl
          rw [List.length_set, he1] at this
          simp at this
        obtain ⟨hh, _⟩ := serLoop_head fl _ _ _ hq' hne h
        refine ⟨idx', ?_, hidx⟩
        rw [hh, head?_set_zero]
        intro hnil
        have : (an').length = 0 := by rw [hnil]; rfl
        rw [he1] at this
        simp at this

/-- When every child slot of the record is either marked absent (helper
index 0) or already attached, the deserialize scan reports the entry
ready. -/
lemma scanMissing_ready {T : Type} (nd : Node T) (idx : List Nat) :
    ∀ (rem j : Nat),
      (∀ i, j ≤ i → i < j + rem →
        idx.getD i 0 = 0 ∨ (nd.children.getD i none).isSome = true) →
      scanMissing (some nd) idx rem j = some none := by
  intro rem
  induction rem with
  | zero => intro j _; rfl
  | succ r ih =>
    intro j hall
    have hj := hall j (le_refl j) (by omega)
    unfold scanMissing
    by_cases h0 : idx.getD j 0 = 0
    · rw [if_pos h0]
      exact ih (j + 1) (fun i hi1 hi2 => hall i (by omega) (by omega))
    · rw [if_neg h0]
      rcases hj with hj | hj
      · exact absurd hj h0
      · dsimp only
        rw [if_pos hj]
        exact ih (j + 1) (fun i hi1 hi2 => hall i (by omega) (by omega))

/-- C2: rebuilding from the flattened record list — Node::deserialize
applied to the output of Node::serialize with each node's record made
owned (Rust's derived Clone is deep, so an owned record keeps its attached
children) — yields a tree whose get result equals the original tree's get
result at every point.  Indeed the rebuilt tree is the root record itself:
its child slots are either already attached (helper index nonzero) or
marked absent (helper index 0), so the stack loop pops the root
immediately. -/
theorem claim_C2_round_trip {T : Type} (fuel : Nat) (n : Node T)
    (out : List (Node T × List Nat)) (h : Node.serialize fuel n = some out) :
    ∃ t', Node.deserialize 1 (toOwned out) = some t' ∧
      ∀ p, t'.get p = n.get p := by
  obtain ⟨idx0, hhead, hidx⟩ := serialize_head fuel n out h
  refine ⟨n, ?_, fun p => rfl⟩
  cases out with
  | nil => simp at hhead
  | cons r rest =>
    have hr : r = (n, idx0) := by simpa using hhead
    subst hr
    unfold Node.deserialize
    have hready : scanMissing (some n) idx0 8 0 = some none := by
      refine scanMissing_ready n idx0 8 0 ?_
      intro i _ _
      cases hci : n.children.getD i none with
      | none => exact Or.inl (hidx i hci)
      | some c => exact Or.inr rfl
    have hstep : deserLoop 1 (toOwned ((n, idx0) :: rest)) [(0, 0, 0)] =
        some (toOwned ((n, idx0) :: rest)) := by
      simp only [deserLoop, toOwned, List.map_cons]
      rw [show ((some n, idx0) :: List.map (fun r => (some r.1, r.2)) rest).getD 0
          (none, []) = (some n, idx0) from rfl]
      rw [if_pos (by simp)]
      rw [hready]
      simp
    rw [hstep]
    have hg : (toOwned ((n, idx0) :: rest)).getD 0 (none, []) = (some n, idx0) := rfl
    dsimp only
    rw [hg]
    dsimp only
    rw [if_pos (by simp [toOwned])]

theorem claim_C2_witness :
    leafTwo.serialize 2 = some [(leafTwo, List.replicate 8 0)] ∧
    (∃ t', Node.deserialize 1 (toOwned [(leafTwo, List.replicate 8 0)]) = some t' ∧
      ∀ p, t'.get p = leafTwo.get p) :=
  ⟨by decide, claim_C2_round_trip 2 leafTwo [(leafTwo, List.replicate 8 0)] (by decide)⟩

end Svo
